import Mathlib

/-! # Englishland: the Icelandic pronunciation approximator

A shallow embedding of `transcribe` and `isVowel` from `main.go`, together with
the two library functions `transcribe` calls on its argument
(`strings.TrimSpace` and `strings.ToLower`).

A Go string is read as the sequence of code points that `[]rune(word)` decodes
from it, so a word is a `List Char` (`TrimSpace`, `ToLower` and `[]rune` all
decode a byte that is not valid UTF-8 as U+FFFD, which is not white space and
has no case).  The `strings.Builder` named `result` is the list of characters
written so far.  An index or slice expression that Go would abort on is an
explicit `Fault`, and the loop runs on a budget of passes; the lemmas below
show that neither is ever hit.
-/

namespace Englishland

/-! ## `unicode.IsSpace` and `strings.TrimSpace` -/

/-- Go's `unicode.IsSpace` on a code point: the Latin-1 cases
`'\t', '\n', '\v', '\f', '\r', ' ', U+0085, U+00A0` and, above Latin-1, the
`White_Space` table `U+1680, U+2000..U+200A, U+2028, U+2029, U+202F, U+205F,
U+3000`. -/
def isSpaceNat (n : Nat) : Bool :=
  (0x09 ≤ n && n ≤ 0x0D) || n == 0x20 || n == 0x85 || n == 0xA0 ||
  n == 0x1680 || (0x2000 ≤ n && n ≤ 0x200A) || (0x2028 ≤ n && n ≤ 0x2029) ||
  n == 0x202F || n == 0x205F || n == 0x3000

/-- The predicate `unicode.IsSpace` on a rune. -/
def isSpace (r : Char) : Bool := isSpaceNat r.toNat

/-- Go's `strings.TrimSpace`: the word without its leading and trailing white
space (the ASCII fast path and `TrimFunc(s, unicode.IsSpace)` agree). -/
def TrimSpace (s : List Char) : List Char :=
  (s.dropWhile isSpace).rdropWhile isSpace

/-! ## `unicode.ToLower` and `strings.ToLower` -/

/-- A run of code points that `unicode.To(unicode.LowerCase, r)` changes: the
code points `lo, lo+1, ..., hi` map to `target + (r - lo)`. When `alt` is set
the run is `lo, lo+2, ..., hi`, the upper-case members of one of Go's
`UpperLower` ranges, where `r` maps to `Lo + ((r-Lo)&^1 | 1)`: an even offset
moves up by one and an odd offset stays. -/
structure CaseRange where
  lo : Nat
  hi : Nat
  alt : Bool
  target : Nat
deriving DecidableEq, Repr

/-- The code point `n` is one that the range maps. -/
def CaseRange.moves (e : CaseRange) (n : Nat) : Bool :=
  e.lo ≤ n && n ≤ e.hi && (!e.alt || (n - e.lo) % 2 == 0)

/-- The code points that have a simple lower-case mapping other than
themselves in the Unicode Character Database, version 17.0.0, with their
images: what the `LowerCase` deltas of Go's `unicode.CaseRanges` tabulate,
ranges of delta zero left out. In code point order. The 1488 code points are
the 1433 of Unicode 14.0 and 15.0, the 27 added by 16.0 (Garay
U+10D50..U+10D65, U+1C89, U+A7CB, U+A7CC, U+A7DA, U+A7DC) and the 28 added by
17.0 (Beria Erfe U+16EA0..U+16EB8, U+A7CE, U+A7D2, U+A7D4). -/
def caseRanges : List CaseRange := [
  CaseRange.mk 0x0041 0x005A false 0x0061, CaseRange.mk 0x00C0 0x00D6 false 0x00E0, CaseRange.mk 0x00D8 0x00DE false 0x00F8,
  CaseRange.mk 0x0100 0x012E true 0x0101, CaseRange.mk 0x0130 0x0130 false 0x0069, CaseRange.mk 0x0132 0x0136 true 0x0133,
  CaseRange.mk 0x0139 0x0147 true 0x013A, CaseRange.mk 0x014A 0x0176 true 0x014B, CaseRange.mk 0x0178 0x0178 false 0x00FF,
  CaseRange.mk 0x0179 0x017D true 0x017A, CaseRange.mk 0x0181 0x0181 false 0x0253, CaseRange.mk 0x0182 0x0184 true 0x0183,
  CaseRange.mk 0x0186 0x0186 false 0x0254, CaseRange.mk 0x0187 0x0187 false 0x0188, CaseRange.mk 0x0189 0x018A false 0x0256,
  CaseRange.mk 0x018B 0x018B false 0x018C, CaseRange.mk 0x018E 0x018E false 0x01DD, CaseRange.mk 0x018F 0x018F false 0x0259,
  CaseRange.mk 0x0190 0x0190 false 0x025B, CaseRange.mk 0x0191 0x0191 false 0x0192, CaseRange.mk 0x0193 0x0193 false 0x0260,
  CaseRange.mk 0x0194 0x0194 false 0x0263, CaseRange.mk 0x0196 0x0196 false 0x0269, CaseRange.mk 0x0197 0x0197 false 0x0268,
  CaseRange.mk 0x0198 0x0198 false 0x0199, CaseRange.mk 0x019C 0x019C false 0x026F, CaseRange.mk 0x019D 0x019D false 0x0272,
  CaseRange.mk 0x019F 0x019F false 0x0275, CaseRange.mk 0x01A0 0x01A4 true 0x01A1, CaseRange.mk 0x01A6 0x01A6 false 0x0280,
  CaseRange.mk 0x01A7 0x01A7 false 0x01A8, CaseRange.mk 0x01A9 0x01A9 false 0x0283, CaseRange.mk 0x01AC 0x01AC false 0x01AD,
  CaseRange.mk 0x01AE 0x01AE false 0x0288, CaseRange.mk 0x01AF 0x01AF false 0x01B0, CaseRange.mk 0x01B1 0x01B2 false 0x028A,
  CaseRange.mk 0x01B3 0x01B5 true 0x01B4, CaseRange.mk 0x01B7 0x01B7 false 0x0292, CaseRange.mk 0x01B8 0x01B8 false 0x01B9,
  CaseRange.mk 0x01BC 0x01BC false 0x01BD, CaseRange.mk 0x01C4 0x01C4 false 0x01C6, CaseRange.mk 0x01C5 0x01C5 false 0x01C6,
  CaseRange.mk 0x01C7 0x01C7 false 0x01C9, CaseRange.mk 0x01C8 0x01C8 false 0x01C9, CaseRange.mk 0x01CA 0x01CA false 0x01CC,
  CaseRange.mk 0x01CB 0x01DB true 0x01CC, CaseRange.mk 0x01DE 0x01EE true 0x01DF, CaseRange.mk 0x01F1 0x01F1 false 0x01F3,
  CaseRange.mk 0x01F2 0x01F4 true 0x01F3, CaseRange.mk 0x01F6 0x01F6 false 0x0195, CaseRange.mk 0x01F7 0x01F7 false 0x01BF,
  CaseRange.mk 0x01F8 0x021E true 0x01F9, CaseRange.mk 0x0220 0x0220 false 0x019E, CaseRange.mk 0x0222 0x0232 true 0x0223,
  CaseRange.mk 0x023A 0x023A false 0x2C65, CaseRange.mk 0x023B 0x023B false 0x023C, CaseRange.mk 0x023D 0x023D false 0x019A,
  CaseRange.mk 0x023E 0x023E false 0x2C66, CaseRange.mk 0x0241 0x0241 false 0x0242, CaseRange.mk 0x0243 0x0243 false 0x0180,
  CaseRange.mk 0x0244 0x0244 false 0x0289, CaseRange.mk 0x0245 0x0245 false 0x028C, CaseRange.mk 0x0246 0x024E true 0x0247,
  CaseRange.mk 0x0370 0x0372 true 0x0371, CaseRange.mk 0x0376 0x0376 false 0x0377, CaseRange.mk 0x037F 0x037F false 0x03F3,
  CaseRange.mk 0x0386 0x0386 false 0x03AC, CaseRange.mk 0x0388 0x038A false 0x03AD, CaseRange.mk 0x038C 0x038C false 0x03CC,
  CaseRange.mk 0x038E 0x038F false 0x03CD, CaseRange.mk 0x0391 0x03A1 false 0x03B1, CaseRange.mk 0x03A3 0x03AB false 0x03C3,
  CaseRange.mk 0x03CF 0x03CF false 0x03D7, CaseRange.mk 0x03D8 0x03EE true 0x03D9, CaseRange.mk 0x03F4 0x03F4 false 0x03B8,
  CaseRange.mk 0x03F7 0x03F7 false 0x03F8, CaseRange.mk 0x03F9 0x03F9 false 0x03F2, CaseRange.mk 0x03FA 0x03FA false 0x03FB,
  CaseRange.mk 0x03FD 0x03FF false 0x037B, CaseRange.mk 0x0400 0x040F false 0x0450, CaseRange.mk 0x0410 0x042F false 0x0430,
  CaseRange.mk 0x0460 0x0480 true 0x0461, CaseRange.mk 0x048A 0x04BE true 0x048B, CaseRange.mk 0x04C0 0x04C0 false 0x04CF,
  CaseRange.mk 0x04C1 0x04CD true 0x04C2, CaseRange.mk 0x04D0 0x052E true 0x04D1, CaseRange.mk 0x0531 0x0556 false 0x0561,
  CaseRange.mk 0x10A0 0x10C5 false 0x2D00, CaseRange.mk 0x10C7 0x10C7 false 0x2D27, CaseRange.mk 0x10CD 0x10CD false 0x2D2D,
  CaseRange.mk 0x13A0 0x13EF false 0xAB70, CaseRange.mk 0x13F0 0x13F5 false 0x13F8, CaseRange.mk 0x1C89 0x1C89 false 0x1C8A,
  CaseRange.mk 0x1C90 0x1CBA false 0x10D0, CaseRange.mk 0x1CBD 0x1CBF false 0x10FD, CaseRange.mk 0x1E00 0x1E94 true 0x1E01,
  CaseRange.mk 0x1E9E 0x1E9E false 0x00DF, CaseRange.mk 0x1EA0 0x1EFE true 0x1EA1, CaseRange.mk 0x1F08 0x1F0F false 0x1F00,
  CaseRange.mk 0x1F18 0x1F1D false 0x1F10, CaseRange.mk 0x1F28 0x1F2F false 0x1F20, CaseRange.mk 0x1F38 0x1F3F false 0x1F30,
  CaseRange.mk 0x1F48 0x1F4D false 0x1F40, CaseRange.mk 0x1F59 0x1F5F true 0x1F51, CaseRange.mk 0x1F68 0x1F6F false 0x1F60,
  CaseRange.mk 0x1F88 0x1F8F false 0x1F80, CaseRange.mk 0x1F98 0x1F9F false 0x1F90, CaseRange.mk 0x1FA8 0x1FAF false 0x1FA0,
  CaseRange.mk 0x1FB8 0x1FB9 false 0x1FB0, CaseRange.mk 0x1FBA 0x1FBB false 0x1F70, CaseRange.mk 0x1FBC 0x1FBC false 0x1FB3,
  CaseRange.mk 0x1FC8 0x1FCB false 0x1F72, CaseRange.mk 0x1FCC 0x1FCC false 0x1FC3, CaseRange.mk 0x1FD8 0x1FD9 false 0x1FD0,
  CaseRange.mk 0x1FDA 0x1FDB false 0x1F76, CaseRange.mk 0x1FE8 0x1FE9 false 0x1FE0, CaseRange.mk 0x1FEA 0x1FEB false 0x1F7A,
  CaseRange.mk 0x1FEC 0x1FEC false 0x1FE5, CaseRange.mk 0x1FF8 0x1FF9 false 0x1F78, CaseRange.mk 0x1FFA 0x1FFB false 0x1F7C,
  CaseRange.mk 0x1FFC 0x1FFC false 0x1FF3, CaseRange.mk 0x2126 0x2126 false 0x03C9, CaseRange.mk 0x212A 0x212A false 0x006B,
  CaseRange.mk 0x212B 0x212B false 0x00E5, CaseRange.mk 0x2132 0x2132 false 0x214E, CaseRange.mk 0x2160 0x216F false 0x2170,
  CaseRange.mk 0x2183 0x2183 false 0x2184, CaseRange.mk 0x24B6 0x24CF false 0x24D0, CaseRange.mk 0x2C00 0x2C2F false 0x2C30,
  CaseRange.mk 0x2C60 0x2C60 false 0x2C61, CaseRange.mk 0x2C62 0x2C62 false 0x026B, CaseRange.mk 0x2C63 0x2C63 false 0x1D7D,
  CaseRange.mk 0x2C64 0x2C64 false 0x027D, CaseRange.mk 0x2C67 0x2C6B true 0x2C68, CaseRange.mk 0x2C6D 0x2C6D false 0x0251,
  CaseRange.mk 0x2C6E 0x2C6E false 0x0271, CaseRange.mk 0x2C6F 0x2C6F false 0x0250, CaseRange.mk 0x2C70 0x2C70 false 0x0252,
  CaseRange.mk 0x2C72 0x2C72 false 0x2C73, CaseRange.mk 0x2C75 0x2C75 false 0x2C76, CaseRange.mk 0x2C7E 0x2C7F false 0x023F,
  CaseRange.mk 0x2C80 0x2CE2 true 0x2C81, CaseRange.mk 0x2CEB 0x2CED true 0x2CEC, CaseRange.mk 0x2CF2 0x2CF2 false 0x2CF3,
  CaseRange.mk 0xA640 0xA66C true 0xA641, CaseRange.mk 0xA680 0xA69A true 0xA681, CaseRange.mk 0xA722 0xA72E true 0xA723,
  CaseRange.mk 0xA732 0xA76E true 0xA733, CaseRange.mk 0xA779 0xA77B true 0xA77A, CaseRange.mk 0xA77D 0xA77D false 0x1D79,
  CaseRange.mk 0xA77E 0xA786 true 0xA77F, CaseRange.mk 0xA78B 0xA78B false 0xA78C, CaseRange.mk 0xA78D 0xA78D false 0x0265,
  CaseRange.mk 0xA790 0xA792 true 0xA791, CaseRange.mk 0xA796 0xA7A8 true 0xA797, CaseRange.mk 0xA7AA 0xA7AA false 0x0266,
  CaseRange.mk 0xA7AB 0xA7AB false 0x025C, CaseRange.mk 0xA7AC 0xA7AC false 0x0261, CaseRange.mk 0xA7AD 0xA7AD false 0x026C,
  CaseRange.mk 0xA7AE 0xA7AE false 0x026A, CaseRange.mk 0xA7B0 0xA7B0 false 0x029E, CaseRange.mk 0xA7B1 0xA7B1 false 0x0287,
  CaseRange.mk 0xA7B2 0xA7B2 false 0x029D, CaseRange.mk 0xA7B3 0xA7B3 false 0xAB53, CaseRange.mk 0xA7B4 0xA7C2 true 0xA7B5,
  CaseRange.mk 0xA7C4 0xA7C4 false 0xA794, CaseRange.mk 0xA7C5 0xA7C5 false 0x0282, CaseRange.mk 0xA7C6 0xA7C6 false 0x1D8E,
  CaseRange.mk 0xA7C7 0xA7C9 true 0xA7C8, CaseRange.mk 0xA7CB 0xA7CB false 0x0264, CaseRange.mk 0xA7CC 0xA7DA true 0xA7CD,
  CaseRange.mk 0xA7DC 0xA7DC false 0x019B, CaseRange.mk 0xA7F5 0xA7F5 false 0xA7F6, CaseRange.mk 0xFF21 0xFF3A false 0xFF41,
  CaseRange.mk 0x10400 0x10427 false 0x10428, CaseRange.mk 0x104B0 0x104D3 false 0x104D8, CaseRange.mk 0x10570 0x1057A false 0x10597,
  CaseRange.mk 0x1057C 0x1058A false 0x105A3, CaseRange.mk 0x1058C 0x10592 false 0x105B3, CaseRange.mk 0x10594 0x10595 false 0x105BB,
  CaseRange.mk 0x10C80 0x10CB2 false 0x10CC0, CaseRange.mk 0x10D50 0x10D65 false 0x10D70, CaseRange.mk 0x118A0 0x118BF false 0x118C0,
  CaseRange.mk 0x16E40 0x16E5F false 0x16E60, CaseRange.mk 0x16EA0 0x16EB8 false 0x16EBB, CaseRange.mk 0x1E900 0x1E921 false 0x1E922
]

/-- Go's `unicode.To(unicode.LowerCase, r)` on a code point: the mapped value
of the range holding `n`, or `n` itself when no range holds it. -/
def lowerTable (n : Nat) : Nat :=
  match caseRanges.find? (fun e => e.moves n) with
  | some e => e.target + (n - e.lo)
  | none => n

/-- Go's `unicode.ToLower` on a code point: ASCII is handled directly, the
rest goes through the case table. -/
def toLowerNat (n : Nat) : Nat :=
  if n ≤ 0x7F then
    if 0x41 ≤ n && n ≤ 0x5A then n + 0x20 else n
  else lowerTable n

/-- Go's `unicode.ToLower` on a rune. -/
def toLowerRune (r : Char) : Char := Char.ofNat (toLowerNat r.toNat)

/-- Go's `strings.ToLower`: every rune mapped by `unicode.ToLower`. -/
def ToLower (s : List Char) : List Char := s.map toLowerRune

/-! ## `isVowel` -/

/-- The source's `isVowel`: `strings.ContainsRune("aáeéiíóúüyýæö", r)`. -/
def isVowel (r : Char) : Bool :=
  "aáeéiíóúüyýæö".data.contains r

/-! ## `transcribe` -/

/-- What aborts a run of the model: an index or slice expression out of range
(a Go run-time panic), or the loop's iteration budget used up. -/
inductive Fault where
  | indexOutOfRange
  | outOfFuel
deriving DecidableEq, Repr

/-- The slice expression `runes[lo:hi]`, in range when `lo ≤ hi ≤ len(runes)`
(Go allows `hi` up to the capacity, which is at least the length). -/
def sliceRunes (runes : List Char) (lo hi : Nat) : Except Fault (List Char) :=
  if lo ≤ hi ∧ hi ≤ runes.length then .ok ((runes.drop lo).take (hi - lo))
  else .error .indexOutOfRange

/-- The index expression `runes[i]`. -/
def indexRunes (runes : List Char) (i : Nat) : Except Fault Char :=
  match runes[i]? with
  | some c => .ok c
  | none => .error .indexOutOfRange

/-- The `switch digraph` of lines 38-67: the token written for a two-character
pattern, or `none` when no case matches. -/
def digraphToken (digraph : List Char) : Option (List Char) :=
  if digraph = ['a', 'u'] then some ['o', 'y']
  else if digraph = ['e', 'y'] ∨ digraph = ['e', 'i'] then some ['a', 'y']
  else if digraph = ['h', 'v'] then some ['k', 'v']
  else if digraph = ['l', 'l'] then some ['t', 'l']
  else if digraph = ['f', 'n'] then some ['p', 'n']
  else if digraph = ['r', 'l'] then some ['r', 't', 'l']
  else if digraph = ['r', 'n'] then some ['r', 't', 'n']
  else none

/-- The condition of line 102,
`i > 0 && i < n-1 && isVowel(runes[i-1]) && isVowel(runes[i+1])`,
evaluated left to right with short-circuiting. -/
def flanked (runes : List Char) (i : Nat) : Except Fault Bool :=
  let n : Int := runes.length
  if 0 < i ∧ (i : Int) < n - 1 then
    match indexRunes runes (i - 1) with
    | .error e => .error e
    | .ok p =>
      if isVowel p then
        match indexRunes runes (i + 1) with
        | .error e => .error e
        | .ok q => .ok (isVowel q)
      else .ok false
  else .ok false

/-- The `switch char` of lines 72-121: the token written for the single
character `char` found at index `i`. -/
def monographToken (runes : List Char) (i : Nat) (char : Char) :
    Except Fault (List Char) :=
  if char = 'á' then .ok ['o', 'w']
  else if char = 'é' then .ok ['y', 'e', 'h']
  else if char = 'í' ∨ char = 'ý' then .ok ['e', 'e']
  else if char = 'ó' then .ok ['o', 'h']
  else if char = 'ú' then .ok ['o', 'o']
  else if char = 'æ' then .ok ['e', 'y', 'e']
  else if char = 'ö' then .ok ['u', 'r']
  else if char = 'þ' then .ok ['t', 'h']
  else if char = 'ð' then .ok ['t', 'h']
  else if char = 'j' then .ok ['y']
  else if char = 'g' then .ok ['g']
  else if char = 'f' then
    match flanked runes i with
    | .error e => .error e
    | .ok b => if b then .ok ['v'] else .ok ['f']
  else if char = 'a' then .ok ['a']
  else if char = 'e' then .ok ['e', 'h']
  else if char = 'i' ∨ char = 'y' then .ok ['i']
  else if char = 'o' then .ok ['o']
  else if char = 'u' then .ok ['u', 'h']
  else .ok [char]

/-- Lines 71-122: the single-character rules at index `i`; the token written
and the cursor after `i++`. -/
def monograph (runes : List Char) (i : Nat) : Except Fault (List Char × Nat) :=
  match indexRunes runes i with
  | .error e => .error e
  | .ok char =>
    match monographToken runes i char with
    | .error e => .error e
    | .ok tok => .ok (tok, i + 1)

/-- Lines 36-122, one pass of the loop body after the separator: the token
written to `result` and the cursor the next pass starts from. -/
def step (runes : List Char) (i : Nat) : Except Fault (List Char × Nat) :=
  if i + 1 < runes.length then
    match sliceRunes runes i (i + 2) with
    | .error e => .error e
    | .ok digraph =>
      match digraphToken digraph with
      | some tok => .ok (tok, i + 2)
      | none => monograph runes i
  else monograph runes i

/-- The loop of lines 25-123, `for i := 0; i < n; { ... }`, run from cursor
`i` with `result` written so far, for at most `fuel` passes. -/
def scanLoop (runes : List Char) : Nat → Nat → List Char → Except Fault (List Char)
  | 0, i, result =>
    if i < runes.length then .error .outOfFuel else .ok result
  | fuel + 1, i, result =>
    if i < runes.length then
      let result := if result.length > 0 then result ++ ['-'] else result
      match step runes i with
      | .error e => .error e
      | .ok (tok, j) => scanLoop runes fuel j (result ++ tok)
    else .ok result

/-- Line 14: `strings.ToLower(strings.TrimSpace(word))`. -/
def normalize (word : List Char) : List Char := ToLower (TrimSpace word)

/-- The source's `transcribe` on the code points of `word`. The loop gets one
pass per code point of the normalised word. -/
def transcribeRunes (word : List Char) : Except Fault (List Char) :=
  let word := normalize word
  if word = [] then .ok []
  else
    let runes := word
    let n := runes.length
    scanLoop runes n 0 []

/-- The source's `transcribe`. -/
def transcribe (word : String) : Except Fault String :=
  match transcribeRunes word.data with
  | .error e => .error e
  | .ok r => .ok (String.mk r)

/-! ## The passes of the loop -/

/-- One pass of the loop body: the cursor it started at, the token it wrote to
`result`, and the cursor it left. -/
structure Pass where
  pos : Nat
  tok : List Char
  next : Nat
deriving DecidableEq, Repr

/-- The passes the loop of lines 25-123 makes from cursor `i`, in order, for
at most `fuel` passes: the same `step` calls as `scanLoop`, with the builder
left out. -/
def scanTrace (runes : List Char) : Nat → Nat → Except Fault (List Pass)
  | 0, i =>
    if i < runes.length then .error .outOfFuel else .ok []
  | fuel + 1, i =>
    if i < runes.length then
      match step runes i with
      | .error e => .error e
      | .ok (tok, j) =>
        match scanTrace runes fuel j with
        | .error e => .error e
        | .ok ps => .ok (Pass.mk i tok j :: ps)
    else .ok []

/-- The passes `transcribe` makes over `word`. -/
def passes (word : String) : Except Fault (List Pass) :=
  let runes := normalize word.data
  scanTrace runes runes.length 0

/-- The tokens `transcribe` writes for `word`, in order, separators left
out. -/
def emitted (word : String) : Except Fault (List String) :=
  match passes word with
  | .error e => .error e
  | .ok ps => .ok (ps.map (fun p => String.mk p.tok))

/-- Whether two outcomes are equal can be computed. -/
instance decEqExcept {ε α : Type} [DecidableEq ε] [DecidableEq α] :
    DecidableEq (Except ε α)
  | .ok a, .ok b =>
    if h : a = b then isTrue (by rw [h]) else isFalse (fun h' => by cases h'; exact h rfl)
  | .error a, .error b =>
    if h : a = b then isTrue (by rw [h]) else isFalse (fun h' => by cases h'; exact h rfl)
  | .ok _, .error _ => isFalse (fun h' => by cases h')
  | .error _, .ok _ => isFalse (fun h' => by cases h')

/-! ## The rule tables, as the claims list them -/

/-- The cases of the `switch digraph`, pattern and token. -/
def digraphRules : List (List Char × List Char) :=
  [ (['a', 'u'], ['o', 'y']), (['e', 'y'], ['a', 'y']), (['e', 'i'], ['a', 'y']),
    (['h', 'v'], ['k', 'v']), (['l', 'l'], ['t', 'l']), (['f', 'n'], ['p', 'n']),
    (['r', 'l'], ['r', 't', 'l']), (['r', 'n'], ['r', 't', 'n']) ]

/-- The cases of the `switch char` other than `'f'` and `default`, character
and token. -/
def monographRules : List (Char × List Char) :=
  [ ('á', ['o', 'w']), ('é', ['y', 'e', 'h']), ('í', ['e', 'e']), ('ý', ['e', 'e']),
    ('ó', ['o', 'h']), ('ú', ['o', 'o']), ('æ', ['e', 'y', 'e']), ('ö', ['u', 'r']),
    ('þ', ['t', 'h']), ('ð', ['t', 'h']), ('j', ['y']), ('g', ['g']),
    ('a', ['a']), ('e', ['e', 'h']), ('i', ['i']), ('y', ['i']), ('o', ['o']),
    ('u', ['u', 'h']) ]

/-- The characters that have a case of their own in the `switch char`. -/
def monographKeys : List Char := 'f' :: monographRules.map Prod.fst

/-- The token of the digraph case that matches at cursor `i`, if the digraph
check of lines 36-68 is reached with a match there. -/
def digraphAt (runes : List Char) (i : Nat) : Option (List Char) :=
  if i + 1 < runes.length then digraphToken ((runes.drop i).take 2) else none

/-! ## Closed forms used in the proofs -/

/-- The flanking test in closed form. -/
def flankedBy (runes : List Char) (i : Nat) : Bool :=
  decide (0 < i) && decide (i + 1 < runes.length) &&
    (runes[i - 1]?).any isVowel && (runes[i + 1]?).any isVowel

/-- The token of the `switch char` in closed form. -/
def monoTok (runes : List Char) (i : Nat) (c : Char) : List Char :=
  if c = 'f' then (if flankedBy runes i then ['v'] else ['f'])
  else (monographRules.lookup c).getD [c]

/-- The builder after one more token: the separator first, unless nothing
has been written yet (lines 27-29), then the token. -/
def writeToken (result tok : List Char) : List Char :=
  (if result.length > 0 then result ++ ['-'] else result) ++ tok

/-- The builder after the tokens `toks` are written in order. -/
def writeAll (result : List Char) (toks : List (List Char)) : List Char :=
  toks.foldl writeToken result

/-- The image of the last code point of the range. -/
def CaseRange.targetHi (e : CaseRange) : Nat := e.target + (e.hi - e.lo)

/-- No code point from `a` to `b` is white space for `unicode.IsSpace`. -/
def spaceFree (a b : Nat) : Bool :=
  (b < 0x09 || 0x0D < a) && (b < 0x20 || 0x20 < a) && (b < 0x85 || 0x85 < a) &&
  (b < 0xA0 || 0xA0 < a) && (b < 0x1680 || 0x1680 < a) && (b < 0x2000 || 0x200A < a) &&
  (b < 0x2028 || 0x2029 < a) && (b < 0x202F || 0x202F < a) && (b < 0x205F || 0x205F < a) &&
  (b < 0x3000 || 0x3000 < a)

/-- Every code point from `a` to `b` is a Unicode scalar value. -/
def scalarRange (a b : Nat) : Bool :=
  b < 0xD800 || (0xDFFF < a && b < 0x110000)

/-- The range is not empty, holds no white space, maps to no white space and
maps to scalar values only. -/
def CaseRange.sound (e : CaseRange) : Bool :=
  e.lo ≤ e.hi && spaceFree e.lo e.hi && spaceFree e.target e.targetHi &&
    scalarRange e.target e.targetHi

/-- No image of a code point of `e` is mapped again by `f`: the images lie
outside `f`, or both ranges alternate and the images fall on the code points
`f` skips, or `e` is a single code point whose image `f` leaves alone. -/
def CaseRange.settles (e f : CaseRange) : Bool :=
  e.targetHi < f.lo || f.hi < e.target ||
    (e.alt && f.alt && (e.target + f.lo) % 2 == 1) ||
    (e.lo == e.hi && !f.moves e.target)

/-- The condition of line 102 with the vowel test `vowel` in place of
`isVowel`. -/
def flankedWith (vowel : Char → Bool) (runes : List Char) (i : Nat) : Except Fault Bool :=
  let n : Int := runes.length
  if 0 < i ∧ (i : Int) < n - 1 then
    match indexRunes runes (i - 1) with
    | .error e => .error e
    | .ok p =>
      if vowel p then
        match indexRunes runes (i + 1) with
        | .error e => .error e
        | .ok q => .ok (vowel q)
      else .ok false
  else .ok false

/-- The `switch char` of lines 72-121 with the vowel test `vowel` in place of
`isVowel`. -/
def monographTokenWith (vowel : Char → Bool) (runes : List Char) (i : Nat) (char : Char) :
    Except Fault (List Char) :=
  if char = 'á' then .ok ['o', 'w']
  else if char = 'é' then .ok ['y', 'e', 'h']
  else if char = 'í' ∨ char = 'ý' then .ok ['e', 'e']
  else if char = 'ó' then .ok ['o', 'h']
  else if char = 'ú' then .ok ['o', 'o']
  else if char = 'æ' then .ok ['e', 'y', 'e']
  else if char = 'ö' then .ok ['u', 'r']
  else if char = 'þ' then .ok ['t', 'h']
  else if char = 'ð' then .ok ['t', 'h']
  else if char = 'j' then .ok ['y']
  else if char = 'g' then .ok ['g']
  else if char = 'f' then
    match flankedWith vowel runes i with
    | .error e => .error e
    | .ok b => if b then .ok ['v'] else .ok ['f']
  else if char = 'a' then .ok ['a']
  else if char = 'e' then .ok ['e', 'h']
  else if char = 'i' ∨ char = 'y' then .ok ['i']
  else if char = 'o' then .ok ['o']
  else if char = 'u' then .ok ['u', 'h']
  else .ok [char]

/-- Lines 71-122 with the vowel test `vowel` in place of `isVowel`. -/
def monographWith (vowel : Char → Bool) (runes : List Char) (i : Nat) :
    Except Fault (List Char × Nat) :=
  match indexRunes runes i with
  | .error e => .error e
  | .ok char =>
    match monographTokenWith vowel runes i char with
    | .error e => .error e
    | .ok tok => .ok (tok, i + 1)

/-- Lines 36-122 with the vowel test `vowel` in place of `isVowel`. -/
def stepWith (vowel : Char → Bool) (runes : List Char) (i : Nat) :
    Except Fault (List Char × Nat) :=
  if i + 1 < runes.length then
    match sliceRunes runes i (i + 2) with
    | .error e => .error e
    | .ok digraph =>
      match digraphToken digraph with
      | some tok => .ok (tok, i + 2)
      | none => monographWith vowel runes i
  else monographWith vowel runes i

/-- The loop of lines 25-123 with the vowel test `vowel` in place of
`isVowel`. -/
def scanLoopWith (vowel : Char → Bool) (runes : List Char) :
    Nat → Nat → List Char → Except Fault (List Char)
  | 0, i, result =>
    if i < runes.length then .error .outOfFuel else .ok result
  | fuel + 1, i, result =>
    if i < runes.length then
      let result := if result.length > 0 then result ++ ['-'] else result
      match stepWith vowel runes i with
      | .error e => .error e
      | .ok (tok, j) => scanLoopWith vowel runes fuel j (result ++ tok)
    else .ok result

/-- The source's `transcribe` with the vowel test `vowel` in place of
`isVowel`. -/
def transcribeWith (vowel : Char → Bool) (word : String) : Except Fault String :=
  let word := normalize word.data
  match (if word = [] then .ok []
    else
      let runes := word
      let n := runes.length
      scanLoopWith vowel runes n 0 []) with
  | .error e => .error e
  | .ok r => .ok (String.mk r)

/-- The passes start at cursor `i`, each starts where the one before it left
the cursor, and each moves the cursor by exactly 1 or exactly 2. -/
def linked : Nat → List Pass → Bool
  | _, [] => true
  | i, p :: ps => p.pos == i && (p.next == i + 1 || p.next == i + 2) && linked p.next ps

/-- The cursor after the passes `ps`, started at cursor `i`. -/
def cursorAfter : Nat → List Pass → Nat
  | i, [] => i
  | _, p :: ps => cursorAfter p.next ps

/-- The number of passes in which a digraph case matched. -/
def digraphPasses (runes : List Char) (ps : List Pass) : Nat :=
  ps.countP (fun p => (digraphAt runes p.pos).isSome)

/-- The number of passes that fell through to the `switch char`. -/
def monographPasses (runes : List Char) (ps : List Pass) : Nat :=
  ps.countP (fun p => (digraphAt runes p.pos).isNone)

/-- The spec's words for the output: the tokens joined with the
single-character separator `-`. -/
def joinTokens (toks : List (List Char)) : List Char :=
  List.intercalate ['-'] toks

/-- The pass `p` of a scan of `b`, as a pass of the scan of a word that has
`k` more characters in front of `b`. -/
def Pass.shift (k : Nat) (p : Pass) : Pass :=
  Pass.mk (k + p.pos) p.tok (k + p.next)

/-! # Lemmas -/

/-! ## One pass of the loop -/

theorem indexRunes_eq {runes : List Char} {i : Nat} {c : Char} (h : runes[i]? = some c) :
    indexRunes runes i = .ok c := by
  simp [indexRunes, h]

theorem indexRunes_of_lt {runes : List Char} {i : Nat} (h : i < runes.length) :
    indexRunes runes i = .ok runes[i] := by
  simp [indexRunes, List.getElem?_eq_getElem h]

theorem sliceRunes_eq {runes : List Char} {i : Nat} (h : i + 1 < runes.length) :
    sliceRunes runes i (i + 2) = .ok ((runes.drop i).take 2) := by
  have h1 : i ≤ i + 2 ∧ i + 2 ≤ runes.length := ⟨by omega, by omega⟩
  have h2 : i + 2 - i = 2 := by omega
  simp [sliceRunes, h1, h2]

theorem step_eq (runes : List Char) (i : Nat) :
    step runes i =
      match digraphAt runes i with
      | some tok => .ok (tok, i + 2)
      | none => monograph runes i := by
  unfold step digraphAt
  by_cases h : i + 1 < runes.length
  · simp only [h, if_true, sliceRunes_eq h]
  · simp only [h, if_false]

theorem flanked_eq (runes : List Char) (i : Nat) :
    flanked runes i = .ok (flankedBy runes i) := by
  unfold flanked flankedBy
  by_cases h : 0 < i ∧ ((i : Int) < (runes.length : Int) - 1)
  · have h1 : i - 1 < runes.length := by omega
    have h2 : i + 1 < runes.length := by omega
    simp only [h, and_self, if_true, indexRunes_of_lt h1, indexRunes_of_lt h2]
    simp only [List.getElem?_eq_getElem h1, List.getElem?_eq_getElem h2, Option.any_some]
    have h0 : 0 < i := h.1
    by_cases hv : isVowel runes[i - 1] = true
    · simp [hv, h0, h2]
    · simp [hv, h0, h2]
  · simp only [h, if_false]
    have : ¬ (0 < i ∧ i + 1 < runes.length) := by omega
    by_cases h0 : 0 < i
    · have h2 : ¬ (i + 1 < runes.length) := fun h2 => this ⟨h0, h2⟩
      simp [h0, h2]
    · simp [h0]

theorem mem_monographKeys (c : Char) :
    c ∈ monographKeys ↔ c = 'f' ∨ c = 'á' ∨ c = 'é' ∨ c = 'í' ∨ c = 'ý' ∨ c = 'ó' ∨ c = 'ú' ∨
      c = 'æ' ∨ c = 'ö' ∨ c = 'þ' ∨ c = 'ð' ∨ c = 'j' ∨ c = 'g' ∨ c = 'a' ∨ c = 'e' ∨
      c = 'i' ∨ c = 'y' ∨ c = 'o' ∨ c = 'u' := by
  simp [monographKeys, monographRules]

theorem monographToken_eq (runes : List Char) (i : Nat) (c : Char) :
    monographToken runes i c = .ok (monoTok runes i c) := by
  by_cases hk : c ∈ monographKeys
  · rw [mem_monographKeys] at hk
    rcases hk with h | h | h | h | h | h | h | h | h | h | h | h | h | h | h | h | h | h | h
    · subst h
      unfold monographToken monoTok
      rw [flanked_eq]
      cases flankedBy runes i <;> rfl
    all_goals (subst h; rfl)
  · rw [mem_monographKeys] at hk
    simp only [not_or] at hk
    obtain ⟨h0, h1, h2, h3, h4, h5, h6, h7, h8, h9, h10, h11, h12, h13, h14, h15, h16, h17, h18⟩ := hk
    unfold monographToken monoTok
    rw [if_neg h1, if_neg h2, if_neg (not_or.mpr ⟨h3, h4⟩), if_neg h5, if_neg h6, if_neg h7,
      if_neg h8, if_neg h9, if_neg h10, if_neg h11, if_neg h12, if_neg h0, if_neg h13, if_neg h14,
      if_neg (not_or.mpr ⟨h15, h16⟩), if_neg h17, if_neg h18, if_neg h0]
    have hn : monographRules.lookup c = none := by
      rw [List.lookup_eq_none_iff]
      intro p hp
      simp only [monographRules, List.mem_cons, List.mem_singleton, List.not_mem_nil, or_false] at hp
      rcases hp with h | h | h | h | h | h | h | h | h | h | h | h | h | h | h | h | h | h <;>
        (subst h; simp [*])
    rw [hn]
    rfl

theorem monographRules_tok_ne_nil : ∀ p ∈ monographRules, p.2 ≠ [] := by
  decide

theorem monoTok_ne_nil (runes : List Char) (i : Nat) (c : Char) : monoTok runes i c ≠ [] := by
  unfold monoTok
  split_ifs
  · exact List.cons_ne_nil _ _
  · exact List.cons_ne_nil _ _
  · cases hl : monographRules.lookup c with
    | none => exact List.cons_ne_nil _ _
    | some t =>
      have hm : (c, t) ∈ monographRules := by
        obtain ⟨l₁, l₂, h, -⟩ := List.lookup_eq_some_iff.mp hl
        rw [h]
        simp
      exact monographRules_tok_ne_nil _ hm

theorem monograph_eq {runes : List Char} {i : Nat} {c : Char} (h : runes[i]? = some c) :
    monograph runes i = .ok (monoTok runes i c, i + 1) := by
  simp [monograph, indexRunes_eq h, monographToken_eq]

theorem monograph_ok {runes : List Char} {i : Nat} (h : i < runes.length) :
    ∃ tok, monograph runes i = .ok (tok, i + 1) ∧ tok ≠ [] :=
  ⟨_, monograph_eq (List.getElem?_eq_getElem h), monoTok_ne_nil _ _ _⟩

theorem digraphToken_eq_lookup (d : List Char) : digraphToken d = digraphRules.lookup d := by
  by_cases hk : d ∈ digraphRules.map Prod.fst
  · simp only [digraphRules, List.map_cons, List.map_nil, List.mem_cons, List.mem_singleton,
      List.not_mem_nil, or_false] at hk
    rcases hk with h | h | h | h | h | h | h | h <;> (subst h; rfl)
  · have hn : digraphRules.lookup d = none := by
      rw [List.lookup_eq_none_iff]
      intro p hp
      have : d ≠ p.1 := fun e => hk (e ▸ List.mem_map_of_mem Prod.fst hp)
      simpa using this
    rw [hn]
    simp only [digraphRules, List.map_cons, List.map_nil, List.mem_cons, List.mem_singleton,
      List.not_mem_nil, or_false, not_or] at hk
    obtain ⟨h1, h2, h3, h4, h5, h6, h7, h8⟩ := hk
    unfold digraphToken
    rw [if_neg h1, if_neg (not_or.mpr ⟨h2, h3⟩), if_neg h4, if_neg h5, if_neg h6, if_neg h7,
      if_neg h8]

theorem digraphToken_iff {d tok : List Char} :
    digraphToken d = some tok ↔ (d, tok) ∈ digraphRules := by
  rw [digraphToken_eq_lookup]
  constructor
  · intro hl
    obtain ⟨l₁, l₂, h, -⟩ := List.lookup_eq_some_iff.mp hl
    rw [h]
    simp
  · intro hm
    simp only [digraphRules, List.mem_cons, List.mem_singleton, List.not_mem_nil, or_false,
      Prod.mk.injEq] at hm
    rcases hm with ⟨h, h'⟩ | ⟨h, h'⟩ | ⟨h, h'⟩ | ⟨h, h'⟩ | ⟨h, h'⟩ | ⟨h, h'⟩ | ⟨h, h'⟩ | ⟨h, h'⟩ <;>
      (subst h; subst h'; rfl)

theorem digraphRules_tok_ne_nil : ∀ p ∈ digraphRules, p.2 ≠ [] := by
  decide

theorem digraphToken_ne_nil {d tok : List Char} (h : digraphToken d = some tok) : tok ≠ [] :=
  digraphRules_tok_ne_nil _ (digraphToken_iff.mp h)

theorem digraphAt_lt {runes : List Char} {i : Nat} {tok : List Char}
    (h : digraphAt runes i = some tok) : i + 1 < runes.length := by
  unfold digraphAt at h
  by_contra h'
  simp [h'] at h

theorem digraphAt_ne_nil {runes : List Char} {i : Nat} {tok : List Char}
    (h : digraphAt runes i = some tok) : tok ≠ [] := by
  have h' := digraphAt_lt h
  unfold digraphAt at h
  rw [if_pos h'] at h
  exact digraphToken_ne_nil h

theorem step_ok {runes : List Char} {i : Nat} (h : i < runes.length) :
    ∃ tok j, step runes i = .ok (tok, j) ∧ tok ≠ [] ∧ (j = i + 1 ∨ j = i + 2) ∧
      j ≤ runes.length := by
  rw [step_eq]
  cases hd : digraphAt runes i with
  | some tok =>
    exact ⟨tok, i + 2, rfl, digraphAt_ne_nil hd, Or.inr rfl, digraphAt_lt hd⟩
  | none =>
    obtain ⟨tok, h1, h2⟩ := monograph_ok h
    exact ⟨tok, i + 1, h1, h2, Or.inl rfl, h⟩

theorem scanLoop_eq_trace (runes : List Char) :
    ∀ (fuel i : Nat) (result : List Char),
      scanLoop runes fuel i result =
        match scanTrace runes fuel i with
        | .error e => .error e
        | .ok ps => .ok (writeAll result (ps.map Pass.tok)) := by
  intro fuel
  induction fuel with
  | zero =>
    intro i result
    unfold scanLoop scanTrace
    split_ifs <;> simp [writeAll]
  | succ fuel ih =>
    intro i result
    unfold scanLoop scanTrace
    by_cases h : i < runes.length
    · simp only [h, if_true]
      cases hs : step runes i with
      | error e => simp
      | ok p =>
        obtain ⟨tok, j⟩ := p
        simp only [ih]
        cases ht : scanTrace runes fuel j with
        | error e => simp
        | ok ps => simp [writeAll, writeToken]
    · simp [h, writeAll]

theorem scanTrace_total (runes : List Char) :
    ∀ (fuel i : Nat), runes.length - i ≤ fuel → ∃ ps, scanTrace runes fuel i = .ok ps := by
  intro fuel
  induction fuel with
  | zero =>
    intro i h
    have : ¬ i < runes.length := by omega
    exact ⟨[], by simp [scanTrace, this]⟩
  | succ fuel ih =>
    intro i h
    unfold scanTrace
    by_cases hi : i < runes.length
    · obtain ⟨tok, j, hs, -, hj, -⟩ := step_ok hi
      obtain ⟨ps, hps⟩ := ih j (by omega)
      exact ⟨Pass.mk i tok j :: ps, by simp [hi, hs, hps]⟩
    · exact ⟨[], by simp [hi]⟩

theorem TrimSpace_eq_nil {s : List Char} (h : ∀ c ∈ s, isSpace c = true) : TrimSpace s = [] := by
  have : s.dropWhile isSpace = [] := List.dropWhile_eq_nil_iff.mpr h
  simp [TrimSpace, this]

theorem transcribeRunes_eq (word : List Char) :
    transcribeRunes word =
      match scanTrace (normalize word) (normalize word).length 0 with
      | .error e => .error e
      | .ok ps => .ok (writeAll [] (ps.map Pass.tok)) := by
  unfold transcribeRunes
  by_cases h : normalize word = []
  · simp [h, scanTrace, writeAll]
  · simp only [h, if_false]
    exact scanLoop_eq_trace _ _ _ _

theorem passes_total (word : String) : ∃ ps, passes word = .ok ps :=
  scanTrace_total _ _ _ (by omega)

theorem transcribe_eq {word : String} {ps : List Pass} (h : passes word = .ok ps) :
    transcribe word = .ok (String.mk (writeAll [] (ps.map Pass.tok))) := by
  unfold passes at h
  simp only at h
  simp [transcribe, transcribeRunes_eq, h]

theorem caseRanges_sound : caseRanges.all CaseRange.sound = true := by
  decide!

theorem caseRanges_settle :
    caseRanges.all (fun e => caseRanges.all (fun f => e.settles f)) = true := by
  decide!

theorem caseRanges_tail_above : caseRanges.tail.all (fun e => decide (0x7F < e.lo)) = true := by
  decide!

theorem spaceFree_spec {a b n : Nat} (h : spaceFree a b = true) (ha : a ≤ n) (hb : n ≤ b) :
    isSpaceNat n = false := by
  simp only [spaceFree, Bool.and_eq_true, Bool.or_eq_true, decide_eq_true_eq] at h
  rw [Bool.eq_false_iff]
  simp only [isSpaceNat, ne_eq, Bool.or_eq_true, Bool.and_eq_true, decide_eq_true_eq,
    beq_iff_eq]
  omega

theorem scalarRange_spec {a b n : Nat} (h : scalarRange a b = true) (ha : a ≤ n) (hb : n ≤ b) :
    n.isValidChar := by
  simp only [scalarRange, Bool.and_eq_true, Bool.or_eq_true, decide_eq_true_eq] at h
  unfold Nat.isValidChar
  omega

theorem moves_iff {e : CaseRange} {n : Nat} :
    e.moves n = true ↔ e.lo ≤ n ∧ n ≤ e.hi ∧ (e.alt = true → (n - e.lo) % 2 = 0) := by
  cases h : e.alt <;> simp [CaseRange.moves, h, and_assoc]

theorem settles_spec {e f : CaseRange} {n : Nat} (h : e.settles f = true)
    (hn : e.moves n = true) : f.moves (e.target + (n - e.lo)) = false := by
  rw [Bool.eq_false_iff]
  intro hf
  rw [moves_iff] at hn hf
  obtain ⟨h1, h2, h3⟩ := hn
  obtain ⟨g1, g2, g3⟩ := hf
  simp only [CaseRange.settles, CaseRange.targetHi, Bool.or_eq_true, Bool.and_eq_true,
    decide_eq_true_eq, beq_iff_eq, Bool.not_eq_true'] at h
  rcases h with ((h | h) | ⟨⟨ha, hb⟩, hc⟩) | ⟨hd, he⟩
  · omega
  · omega
  · have := h3 ha
    have := g3 hb
    omega
  · have hn' : n = e.lo := by omega
    subst hn'
    rw [Bool.eq_false_iff] at he
    apply he
    rw [moves_iff]
    simp only [Nat.sub_self, Nat.add_zero] at g1 g2 g3
    exact ⟨g1, g2, g3⟩

theorem lowerTable_spec (n : Nat) :
    ((∀ e ∈ caseRanges, e.moves n = false) ∧ lowerTable n = n) ∨
    (∃ e ∈ caseRanges, e.moves n = true ∧ lowerTable n = e.target + (n - e.lo)) := by
  unfold lowerTable
  cases h : caseRanges.find? (fun e => e.moves n) with
  | none =>
    left
    refine ⟨?_, rfl⟩
    intro e he
    have := List.find?_eq_none.mp h e he
    simpa using this
  | some e =>
    right
    exact ⟨e, List.mem_of_find?_eq_some h, List.find?_some (p := fun e => CaseRange.moves e n) h, rfl⟩

theorem lowerTable_of_fixed {n : Nat} (h : ∀ e ∈ caseRanges, e.moves n = false) :
    lowerTable n = n := by
  rcases lowerTable_spec n with ⟨-, h'⟩ | ⟨e, he, hm, -⟩
  · exact h'
  · rw [h e he] at hm
    cases hm

theorem lowerTable_idem (n : Nat) : lowerTable (lowerTable n) = lowerTable n := by
  rcases lowerTable_spec n with ⟨-, h⟩ | ⟨e, he, hm, h⟩
  · rw [h, h]
  · rw [h]
    apply lowerTable_of_fixed
    intro f hf
    have hs := List.all_eq_true.mp (List.all_eq_true.mp caseRanges_settle e he) f hf
    exact settles_spec hs hm

theorem caseRanges_head :
    caseRanges = CaseRange.mk 0x41 0x5A false 0x61 :: caseRanges.tail := by
  decide!

theorem toLowerNat_eq (n : Nat) : toLowerNat n = lowerTable n := by
  unfold toLowerNat
  by_cases h : n ≤ 0x7F
  · rw [if_pos h]
    by_cases h' : 0x41 ≤ n ∧ n ≤ 0x5A
    · have hm : (CaseRange.mk 0x41 0x5A false 0x61).moves n = true := by
        rw [moves_iff]
        exact ⟨h'.1, h'.2, fun hf => by cases hf⟩
      have : lowerTable n = 0x61 + (n - 0x41) := by
        unfold lowerTable
        rw [caseRanges_head]
        simp only [List.find?_cons, hm]
      rw [this]
      simp only [h', decide_True, Bool.and_self, if_true]
      omega
    · have hf : lowerTable n = n := by
        apply lowerTable_of_fixed
        intro e he
        rw [caseRanges_head] at he
        rw [Bool.eq_false_iff]
        intro hm
        rw [moves_iff] at hm
        rcases List.mem_cons.mp he with rfl | ht
        · exact h' ⟨hm.1, hm.2.1⟩
        · have := List.all_eq_true.mp caseRanges_tail_above e ht
          simp only [decide_eq_true_eq] at this
          omega
      rw [hf]
      have : ¬ ((decide (0x41 ≤ n) && decide (n ≤ 0x5A)) = true) := by
        simpa using fun a => by omega
      rw [if_neg this]
  · rw [if_neg h]

theorem lowerTable_valid {n : Nat} (h : n.isValidChar) : (lowerTable n).isValidChar := by
  rcases lowerTable_spec n with ⟨-, h'⟩ | ⟨e, he, hm, h'⟩
  · rw [h']
    exact h
  · rw [h']
    have hs := List.all_eq_true.mp caseRanges_sound e he
    simp only [CaseRange.sound, Bool.and_eq_true, decide_eq_true_eq] at hs
    rw [moves_iff] at hm
    refine scalarRange_spec hs.2 (Nat.le_add_right _ _) ?_
    unfold CaseRange.targetHi
    omega

theorem toNat_ofNat_of_valid {n : Nat} (h : n.isValidChar) : (Char.ofNat n).toNat = n := by
  unfold Char.ofNat
  rw [dif_pos h]
  rfl

theorem toNat_toLowerRune (c : Char) : (toLowerRune c).toNat = lowerTable c.toNat := by
  unfold toLowerRune
  rw [toLowerNat_eq]
  exact toNat_ofNat_of_valid (lowerTable_valid c.valid)

theorem toLowerRune_idem (c : Char) : toLowerRune (toLowerRune c) = toLowerRune c := by
  have h : toLowerRune (toLowerRune c) = Char.ofNat (toLowerNat (toLowerRune c).toNat) := rfl
  rw [h, toNat_toLowerRune, toLowerNat_eq, lowerTable_idem]
  unfold toLowerRune
  rw [toLowerNat_eq]

theorem isSpace_toLowerRune (c : Char) : isSpace (toLowerRune c) = isSpace c := by
  unfold isSpace
  rw [toNat_toLowerRune]
  rcases lowerTable_spec c.toNat with ⟨-, h'⟩ | ⟨e, he, hm, h'⟩
  · rw [h']
  · rw [h']
    have hs := List.all_eq_true.mp caseRanges_sound e he
    simp only [CaseRange.sound, Bool.and_eq_true, decide_eq_true_eq] at hs
    rw [moves_iff] at hm
    have h1 : isSpaceNat c.toNat = false := spaceFree_spec hs.1.1.2 hm.1 hm.2.1
    have h2 : isSpaceNat (e.target + (c.toNat - e.lo)) = false := by
      refine spaceFree_spec hs.1.2 (Nat.le_add_right _ _) ?_
      unfold CaseRange.targetHi
      omega
    rw [h1, h2]

theorem dropWhile_initial_segment {p : Char → Bool} {t u : List Char}
    (ht : t.dropWhile p = t) (hu : u <+: t) : u.dropWhile p = u := by
  cases u with
  | nil => rfl
  | cons x u' =>
    obtain ⟨r, hr⟩ := hu
    subst hr
    have hx : ¬ p x = true := by
      have := List.dropWhile_eq_self_iff.mp ht (by simp)
      simpa using this
    exact List.dropWhile_cons_of_neg hx

theorem TrimSpace_idem (s : List Char) : TrimSpace (TrimSpace s) = TrimSpace s := by
  unfold TrimSpace
  rw [dropWhile_initial_segment (List.dropWhile_idempotent isSpace s)
    (List.rdropWhile_prefix isSpace _), List.rdropWhile_idempotent]

theorem isSpace_comp_toLowerRune : isSpace ∘ toLowerRune = isSpace :=
  funext isSpace_toLowerRune

theorem TrimSpace_ToLower (s : List Char) : TrimSpace (ToLower s) = ToLower (TrimSpace s) := by
  unfold TrimSpace ToLower List.rdropWhile
  rw [List.dropWhile_map, isSpace_comp_toLowerRune, ← List.map_reverse, List.dropWhile_map,
    isSpace_comp_toLowerRune, List.map_reverse]

theorem ToLower_idem (s : List Char) : ToLower (ToLower s) = ToLower s := by
  unfold ToLower
  rw [List.map_map]
  congr 1
  exact funext toLowerRune_idem

theorem normalize_idem (s : List Char) : normalize (normalize s) = normalize s := by
  unfold normalize
  rw [TrimSpace_ToLower, TrimSpace_idem, ToLower_idem]

theorem transcribeRunes_normalize (s : List Char) :
    transcribeRunes (normalize s) = transcribeRunes s := by
  unfold transcribeRunes
  rw [normalize_idem]

theorem writeToken_initial (result tok : List Char) : result <+: writeToken result tok := by
  unfold writeToken
  split_ifs
  · rw [List.append_assoc]
    exact List.prefix_append _ _
  · exact List.prefix_append _ _

theorem writeAll_initial (toks : List (List Char)) :
    ∀ result : List Char, result <+: writeAll result toks := by
  induction toks with
  | nil => intro result; exact List.prefix_refl _
  | cons t ts ih =>
    intro result
    exact (writeToken_initial result t).trans (ih _)

theorem digraphRules_length : ∀ p ∈ digraphRules, p.1.length = 2 := by
  decide

theorem step_digraph {runes : List Char} {i : Nat} {d t : List Char}
    (hr : (d, t) ∈ digraphRules) (hi : i + 1 < runes.length)
    (hd : (runes.drop i).take 2 = d) : step runes i = .ok (t, i + 2) := by
  rw [step_eq]
  have : digraphAt runes i = some t := by
    unfold digraphAt
    rw [if_pos hi, hd]
    exact digraphToken_iff.mpr hr
  rw [this]

theorem scanTrace_succ {runes : List Char} {fuel i j : Nat} {tok : List Char}
    (hi : i < runes.length) (hs : step runes i = .ok (tok, j)) :
    scanTrace runes (fuel + 1) i =
      match scanTrace runes fuel j with
      | .error e => .error e
      | .ok ps => .ok (Pass.mk i tok j :: ps) := by
  rw [scanTrace]
  simp only [hi, if_true, hs]

theorem flankedBy_iff (runes : List Char) (i : Nat) :
    flankedBy runes i = true ↔
      0 < i ∧ i < runes.length - 1 ∧
        ∃ p q, runes[i - 1]? = some p ∧ runes[i + 1]? = some q ∧
          isVowel p = true ∧ isVowel q = true := by
  unfold flankedBy
  have hlt : i + 1 < runes.length ↔ i < runes.length - 1 := by omega
  cases h1 : runes[i - 1]? <;> cases h2 : runes[i + 1]? <;> simp [Option.any, hlt, and_assoc]

theorem step_monograph {runes : List Char} {i : Nat} {c : Char} (hc : runes[i]? = some c)
    (hd : digraphAt runes i = none) : step runes i = .ok (monoTok runes i c, i + 1) := by
  rw [step_eq, hd]
  exact monograph_eq hc

theorem scanTrace_steps (runes : List Char) :
    ∀ (fuel i : Nat) (ps : List Pass), scanTrace runes fuel i = .ok ps →
      ∀ p ∈ ps, p.pos < runes.length ∧ step runes p.pos = .ok (p.tok, p.next) := by
  intro fuel
  induction fuel with
  | zero =>
    intro i ps h p hp
    unfold scanTrace at h
    split_ifs at h
    simp only [Except.ok.injEq] at h
    subst h
    cases hp
  | succ fuel ih =>
    intro i ps h p hp
    unfold scanTrace at h
    by_cases hi : i < runes.length
    · simp only [hi, if_true] at h
      cases hs : step runes i with
      | error e => simp [hs] at h
      | ok q =>
        obtain ⟨tok, j⟩ := q
        simp only [hs] at h
        cases ht : scanTrace runes fuel j with
        | error e => simp [ht] at h
        | ok qs =>
          simp only [ht, Except.ok.injEq] at h
          subst h
          rcases List.mem_cons.mp hp with rfl | hp'
          · exact ⟨hi, hs⟩
          · exact ih j qs ht p hp'
    · simp only [hi, if_false, Except.ok.injEq] at h
      subst h
      cases hp

theorem digraphRules_no_hyphen : ∀ p ∈ digraphRules, '-' ∉ p.2 := by
  decide

theorem monographRules_no_hyphen : ∀ p ∈ monographRules, '-' ∉ p.2 := by
  decide

theorem monoTok_no_hyphen (runes : List Char) (i : Nat) {c : Char} (hc : c ≠ '-') :
    '-' ∉ monoTok runes i c := by
  unfold monoTok
  split_ifs
  · decide
  · decide
  · cases hl : monographRules.lookup c with
    | none =>
      simp only [Option.getD_none, List.mem_singleton]
      exact fun h => hc h.symm
    | some t =>
      have hm : (c, t) ∈ monographRules := by
        obtain ⟨l₁, l₂, h, -⟩ := List.lookup_eq_some_iff.mp hl
        rw [h]
        simp
      exact monographRules_no_hyphen _ hm

theorem step_tok_spec {runes : List Char} {i j : Nat} {tok : List Char}
    (hi : i < runes.length) (hs : step runes i = .ok (tok, j)) :
    tok ≠ [] ∧ (runes[i] ≠ '-' → '-' ∉ tok) := by
  rw [step_eq] at hs
  cases hd : digraphAt runes i with
  | some t =>
    rw [hd] at hs
    simp only [Except.ok.injEq, Prod.mk.injEq] at hs
    obtain ⟨rfl, -⟩ := hs
    refine ⟨digraphAt_ne_nil hd, fun _ => ?_⟩
    have hlt := digraphAt_lt hd
    unfold digraphAt at hd
    rw [if_pos hlt] at hd
    exact digraphRules_no_hyphen _ (digraphToken_iff.mp hd)
  | none =>
    rw [hd, monograph_eq (List.getElem?_eq_getElem hi)] at hs
    simp only [Except.ok.injEq, Prod.mk.injEq] at hs
    obtain ⟨rfl, -⟩ := hs
    exact ⟨monoTok_ne_nil _ _ _, fun h => monoTok_no_hyphen _ _ h⟩

theorem writeToken_ne_nil {result tok : List Char} (h : tok ≠ []) :
    writeToken result tok ≠ [] := by
  unfold writeToken
  exact fun e => h (List.append_eq_nil.mp e).2

theorem count_writeAll (toks : List (List Char)) (hne : ∀ t ∈ toks, t ≠ [])
    (hh : ∀ t ∈ toks, '-' ∉ t) :
    ∀ result : List Char, result ≠ [] →
      (writeAll result toks).count '-' = result.count '-' + toks.length := by
  induction toks with
  | nil => intro result _; rfl
  | cons t ts ih =>
    intro result hr
    have hlen : result.length > 0 := List.length_pos.mpr hr
    have hstep : (writeToken result t).count '-' = result.count '-' + 1 := by
      unfold writeToken
      rw [if_pos hlen, List.count_append, List.count_append,
        List.count_eq_zero_of_not_mem (hh t (List.mem_cons_self _ _))]
      rfl
    have := ih (fun u hu => hne u (List.mem_cons_of_mem _ hu))
      (fun u hu => hh u (List.mem_cons_of_mem _ hu)) (writeToken result t)
      (writeToken_ne_nil (hne t (List.mem_cons_self _ _)))
    simp only [writeAll, List.foldl_cons] at this ⊢
    rw [this, hstep, List.length_cons]
    omega

theorem writeAll_final (toks : List (List Char)) :
    ∀ result : List Char, toks ≠ [] →
      ∃ pre t, t ∈ toks ∧ writeAll result toks = pre ++ t := by
  induction toks with
  | nil => intro result h; exact absurd rfl h
  | cons t ts ih =>
    intro result _
    by_cases hts : ts = []
    · subst hts
      refine ⟨if result.length > 0 then result ++ ['-'] else result, t,
        List.mem_cons_self _ _, ?_⟩
      simp [writeAll, writeToken]
    · obtain ⟨pre, u, hu, he⟩ := ih (writeToken result t) hts
      exact ⟨pre, u, List.mem_cons_of_mem _ hu, by simpa [writeAll] using he⟩

theorem passes_tokens {w : String} {ps : List Pass} (hp : passes w = .ok ps)
    (hh : '-' ∉ normalize w.data) :
    ∀ t ∈ ps.map Pass.tok, t ≠ [] ∧ '-' ∉ t := by
  intro t ht
  obtain ⟨p, hps, rfl⟩ := List.mem_map.mp ht
  obtain ⟨hlt, hs⟩ := scanTrace_steps _ _ _ _ hp p hps
  obtain ⟨h1, h2⟩ := step_tok_spec hlt hs
  exact ⟨h1, h2 (fun e => hh (e ▸ List.getElem_mem hlt))⟩

theorem flankedWith_isVowel : flankedWith isVowel = flanked := rfl

theorem monographTokenWith_isVowel : monographTokenWith isVowel = monographToken := rfl

theorem stepWith_isVowel : stepWith isVowel = step := rfl

theorem scanLoopWith_isVowel (runes : List Char) :
    ∀ (fuel i : Nat) (result : List Char),
      scanLoopWith isVowel runes fuel i result = scanLoop runes fuel i result := by
  intro fuel
  induction fuel with
  | zero => intro i result; rfl
  | succ fuel ih =>
    intro i result
    unfold scanLoopWith scanLoop
    rw [stepWith_isVowel]
    simp only [ih]

theorem transcribeWith_isVowel (word : String) :
    transcribeWith isVowel word = transcribe word := by
  unfold transcribeWith transcribe transcribeRunes
  simp only [scanLoopWith_isVowel]

theorem monographTokenWith_of_ne_f (v v' : Char → Bool) (runes : List Char) (i : Nat)
    {c : Char} (hc : c ≠ 'f') :
    monographTokenWith v runes i c = monographTokenWith v' runes i c := by
  unfold monographTokenWith
  rw [if_neg hc, if_neg hc]

theorem stepWith_of_no_f (v v' : Char → Bool) {runes : List Char} (hf : 'f' ∉ runes)
    (i : Nat) : stepWith v runes i = stepWith v' runes i := by
  have hm : monographWith v runes i = monographWith v' runes i := by
    unfold monographWith
    cases hi : indexRunes runes i with
    | error e => rfl
    | ok c =>
      have hc : c ≠ 'f' := by
        intro e
        subst e
        unfold indexRunes at hi
        cases hg : runes[i]? with
        | none => simp [hg] at hi
        | some d =>
          simp only [hg, Except.ok.injEq] at hi
          subst hi
          exact hf (List.getElem?_mem hg)
      simp only [monographTokenWith_of_ne_f v v' runes i hc]
  unfold stepWith
  rw [hm]

theorem scanLoopWith_of_no_f (v v' : Char → Bool) {runes : List Char} (hf : 'f' ∉ runes) :
    ∀ (fuel i : Nat) (result : List Char),
      scanLoopWith v runes fuel i result = scanLoopWith v' runes fuel i result := by
  intro fuel
  induction fuel with
  | zero => intro i result; rfl
  | succ fuel ih =>
    intro i result
    unfold scanLoopWith
    rw [stepWith_of_no_f v v' hf]
    simp only [ih]

theorem step_cases {runes : List Char} {i j : Nat} {tok : List Char}
    (hi : i < runes.length) (hs : step runes i = .ok (tok, j)) :
    ((digraphAt runes i).isSome = true ∧ j = i + 2 ∧ j ≤ runes.length) ∨
    ((digraphAt runes i).isNone = true ∧ j = i + 1 ∧ j ≤ runes.length) := by
  rw [step_eq] at hs
  cases hd : digraphAt runes i with
  | some t =>
    rw [hd] at hs
    simp only [Except.ok.injEq, Prod.mk.injEq] at hs
    have := digraphAt_lt hd
    exact Or.inl ⟨rfl, hs.2.symm, by omega⟩
  | none =>
    rw [hd, monograph_eq (List.getElem?_eq_getElem hi)] at hs
    simp only [Except.ok.injEq, Prod.mk.injEq] at hs
    exact Or.inr ⟨rfl, hs.2.symm, by omega⟩

theorem scanTrace_cons {runes : List Char} {fuel i : Nat} {p : Pass} {ps : List Pass}
    (h : scanTrace runes fuel i = .ok (p :: ps)) :
    ∃ f, fuel = f + 1 ∧ i < runes.length ∧ p.pos = i ∧ step runes i = .ok (p.tok, p.next) ∧
      scanTrace runes f p.next = .ok ps := by
  cases fuel with
  | zero =>
    unfold scanTrace at h
    split_ifs at h
    simp at h
  | succ f =>
    unfold scanTrace at h
    by_cases hi : i < runes.length
    · simp only [hi, if_true] at h
      cases hs : step runes i with
      | error e => simp [hs] at h
      | ok q =>
        obtain ⟨tok, j⟩ := q
        simp only [hs] at h
        cases ht : scanTrace runes f j with
        | error e => simp [ht] at h
        | ok qs =>
          simp only [ht, Except.ok.injEq, List.cons.injEq] at h
          obtain ⟨rfl, rfl⟩ := h
          exact ⟨f, rfl, hi, rfl, rfl, ht⟩
    · simp [hi] at h

theorem scanTrace_nil {runes : List Char} {fuel i : Nat}
    (h : scanTrace runes fuel i = .ok []) : runes.length ≤ i := by
  by_contra hlt
  have hi : i < runes.length := by omega
  cases fuel with
  | zero => simp [scanTrace, hi] at h
  | succ f =>
    unfold scanTrace at h
    simp only [hi, if_true] at h
    cases hs : step runes i with
    | error e => simp [hs] at h
    | ok q =>
      obtain ⟨tok, j⟩ := q
      simp only [hs] at h
      cases ht : scanTrace runes f j with
      | error e => simp [ht] at h
      | ok qs => simp [ht] at h

theorem scanTrace_account (runes : List Char) :
    ∀ (ps : List Pass) (fuel i : Nat), scanTrace runes fuel i = .ok ps → i ≤ runes.length →
      linked i ps = true ∧ cursorAfter i ps = runes.length ∧
      i + 2 * digraphPasses runes ps + monographPasses runes ps = runes.length ∧
      digraphPasses runes ps + monographPasses runes ps = ps.length := by
  intro ps
  induction ps with
  | nil =>
    intro fuel i h hi
    have := scanTrace_nil h
    refine ⟨rfl, ?_, ?_, rfl⟩
    · simp only [cursorAfter]
      omega
    · simp only [digraphPasses, monographPasses, List.countP_nil]
      omega
  | cons p ps ih =>
    intro fuel i h hi
    obtain ⟨f, -, hlt, hpos, hs, ht⟩ := scanTrace_cons h
    have hc := step_cases hlt hs
    have hj : p.next ≤ runes.length := by
      rcases hc with ⟨-, -, h3⟩ | ⟨-, -, h3⟩ <;> exact h3
    obtain ⟨h1, h2, h3, h4⟩ := ih f p.next ht hj
    have hd : digraphPasses runes (p :: ps) =
        digraphPasses runes ps + if (digraphAt runes i).isSome = true then 1 else 0 := by
      rw [← hpos]
      exact List.countP_cons _ _ _
    have hm : monographPasses runes (p :: ps) =
        monographPasses runes ps + if (digraphAt runes i).isNone = true then 1 else 0 := by
      rw [← hpos]
      exact List.countP_cons _ _ _
    have hl : linked i (p :: ps) = true := by
      simp only [linked, Bool.and_eq_true, Bool.or_eq_true, beq_iff_eq]
      rcases hc with ⟨-, hn, -⟩ | ⟨-, hn, -⟩
      · exact ⟨⟨hpos, Or.inr hn⟩, h1⟩
      · exact ⟨⟨hpos, Or.inl hn⟩, h1⟩
    refine ⟨hl, h2, ?_, ?_⟩
    · rcases hc with ⟨hs', hn, -⟩ | ⟨hs', hn, -⟩
      · have hs'' : ¬ (digraphAt runes i).isNone = true := by
          cases hx : digraphAt runes i <;> simp [hx] at hs' ⊢
        rw [hd, hm, if_pos hs', if_neg hs'']
        omega
      · have hs'' : ¬ (digraphAt runes i).isSome = true := by
          cases hx : digraphAt runes i <;> simp [hx] at hs' ⊢
        rw [hd, hm, if_pos hs', if_neg hs'']
        omega
    · rcases hc with ⟨hs', hn, -⟩ | ⟨hs', hn, -⟩
      · have hs'' : ¬ (digraphAt runes i).isNone = true := by
          cases hx : digraphAt runes i <;> simp [hx] at hs' ⊢
        rw [hd, hm, if_pos hs', if_neg hs'', List.length_cons]
        omega
      · have hs'' : ¬ (digraphAt runes i).isSome = true := by
          cases hx : digraphAt runes i <;> simp [hx] at hs' ⊢
        rw [hd, hm, if_pos hs', if_neg hs'', List.length_cons]
        omega

theorem scanTrace_fuel (runes : List Char) :
    ∀ (fuel fuel' i : Nat), runes.length - i ≤ fuel → runes.length - i ≤ fuel' →
      scanTrace runes fuel i = scanTrace runes fuel' i := by
  intro fuel
  induction fuel with
  | zero =>
    intro fuel' i h h'
    have hi : ¬ i < runes.length := by omega
    cases fuel' <;> simp [scanTrace, hi]
  | succ f ih =>
    intro fuel' i h h'
    by_cases hi : i < runes.length
    · cases fuel' with
      | zero => omega
      | succ f' =>
        obtain ⟨tok, j, hs, -, hj, -⟩ := step_ok hi
        rw [scanTrace_succ hi hs, scanTrace_succ hi hs, ih f' j (by omega) (by omega)]
    · cases fuel' <;> simp [scanTrace, hi]

theorem linked_bounds : ∀ (ps : List Pass) (i : Nat), linked i ps = true →
    ∀ q ∈ ps, i ≤ q.pos ∧ q.pos < q.next := by
  intro ps
  induction ps with
  | nil => intro i _ q hq; cases hq
  | cons p ps ih =>
    intro i h q hq
    simp only [linked, Bool.and_eq_true, Bool.or_eq_true, beq_iff_eq] at h
    obtain ⟨⟨hpos, hn⟩, hl⟩ := h
    rcases List.mem_cons.mp hq with rfl | hq'
    · omega
    · have := ih _ hl q hq'
      omega

theorem linked_disjoint : ∀ (ps : List Pass) (i : Nat), linked i ps = true →
    ∀ p ∈ ps, ∀ q ∈ ps, ¬ (p.pos < q.pos ∧ q.pos < p.next) := by
  intro ps
  induction ps with
  | nil => intro i _ p hp; cases hp
  | cons x xs ih =>
    intro i h p hp q hq
    simp only [linked, Bool.and_eq_true, Bool.or_eq_true, beq_iff_eq] at h
    obtain ⟨⟨hpos, hn⟩, hl⟩ := h
    rcases List.mem_cons.mp hp with rfl | hp' <;> rcases List.mem_cons.mp hq with rfl | hq'
    · omega
    · have := linked_bounds xs _ hl q hq'
      omega
    · have := linked_bounds xs _ hl p hp'
      omega
    · exact ih _ hl p hp' q hq'

theorem passes_account {w : String} {ps : List Pass} (h : passes w = .ok ps) :
    linked 0 ps = true ∧ cursorAfter 0 ps = (normalize w.data).length ∧
      0 + 2 * digraphPasses (normalize w.data) ps + monographPasses (normalize w.data) ps =
        (normalize w.data).length ∧
      digraphPasses (normalize w.data) ps + monographPasses (normalize w.data) ps = ps.length :=
  scanTrace_account _ ps _ 0 h (Nat.zero_le _)

theorem writeToken_of_ne_nil {result : List Char} (h : result ≠ []) (tok : List Char) :
    writeToken result tok = result ++ ['-'] ++ tok := by
  unfold writeToken
  rw [if_pos (List.length_pos.mpr h)]

theorem writeAll_cons (result tok : List Char) (toks : List (List Char)) :
    writeAll result (tok :: toks) = writeAll (writeToken result tok) toks := rfl

theorem writeAll_nil_cons (tok : List Char) (toks : List (List Char)) :
    writeAll [] (tok :: toks) = writeAll tok toks := by
  rw [writeAll_cons]
  rfl

theorem writeAll_append_left (toks : List (List Char)) :
    ∀ (x t : List Char), t ≠ [] → writeAll (x ++ t) toks = x ++ writeAll t toks := by
  induction toks with
  | nil => intro x t _; rfl
  | cons u us ih =>
    intro x t ht
    have hxt : x ++ t ≠ [] := fun e => ht (List.append_eq_nil.mp e).2
    rw [writeAll_cons, writeAll_cons, writeToken_of_ne_nil hxt, writeToken_of_ne_nil ht]
    have : x ++ t ++ ['-'] ++ u = x ++ (t ++ ['-'] ++ u) := by simp
    rw [this]
    exact ih x _ (fun e => ht (List.append_eq_nil.mp (List.append_eq_nil.mp e).1).1)

theorem joinTokens_cons_cons (t u : List Char) (us : List (List Char)) :
    joinTokens (t :: u :: us) = t ++ ['-'] ++ joinTokens (u :: us) := by
  simp [joinTokens, List.intercalate]

theorem writeAll_eq_joinTokens (toks : List (List Char)) (hne : ∀ t ∈ toks, t ≠ []) :
    writeAll [] toks = joinTokens toks := by
  cases toks with
  | nil => rfl
  | cons t ts =>
    rw [writeAll_nil_cons]
    induction ts generalizing t with
    | nil => simp [writeAll, joinTokens, List.intercalate]
    | cons u us ih =>
      have ht : t ≠ [] := hne t (List.mem_cons_self _ _)
      have hu : u ≠ [] := hne u (List.mem_cons_of_mem _ (List.mem_cons_self _ _))
      rw [writeAll_cons, writeToken_of_ne_nil ht, writeAll_append_left us _ u hu,
        joinTokens_cons_cons]
      rw [ih u (fun v hv => hne v (List.mem_cons_of_mem _ hv))]

theorem intercalate_go_eq (ts : List (List Char)) :
    ∀ t : List Char, t ≠ [] →
      String.intercalate.go (String.mk t) "-" (ts.map String.mk) = String.mk (writeAll t ts) := by
  induction ts with
  | nil => intro t _; rfl
  | cons u us ih =>
    intro t ht
    rw [writeAll_cons, writeToken_of_ne_nil ht, List.map_cons, String.intercalate.go]
    have : String.mk t ++ "-" ++ String.mk u = String.mk (t ++ ['-'] ++ u) := rfl
    rw [this]
    exact ih _ (fun e => ht (List.append_eq_nil.mp (List.append_eq_nil.mp e).1).1)

theorem passes_tok_ne_nil {w : String} {ps : List Pass} (hp : passes w = .ok ps) :
    ∀ p ∈ ps, p.tok ≠ [] := by
  intro p hm
  obtain ⟨hlt, hs⟩ := scanTrace_steps _ _ _ _ hp p hm
  exact (step_tok_spec hlt hs).1

theorem TrimSpace_eq_nil_iff {s : List Char} :
    TrimSpace s = [] ↔ ∀ c ∈ s, isSpace c = true := by
  constructor
  · intro h
    unfold TrimSpace at h
    rw [List.rdropWhile_eq_nil_iff] at h
    have ht : s.dropWhile isSpace = [] := by
      by_contra hne
      have h1 := List.head_dropWhile_not isSpace s hne
      have h2 := h _ (List.head_mem hne)
      rw [h1] at h2
      cases h2
    exact List.dropWhile_eq_nil_iff.mp ht
  · exact TrimSpace_eq_nil

theorem normalize_eq_nil_iff {s : List Char} :
    normalize s = [] ↔ ∀ c ∈ s, isSpace c = true := by
  unfold normalize ToLower
  rw [List.map_eq_nil_iff, TrimSpace_eq_nil_iff]

theorem transcribe_eq_empty_iff (w : String) :
    transcribe w = .ok "" ↔ ∀ c ∈ w.data, isSpace c = true := by
  constructor
  · intro h
    rw [← normalize_eq_nil_iff]
    obtain ⟨ps, hp⟩ := passes_total w
    rw [transcribe_eq hp] at h
    have hw : writeAll [] (ps.map Pass.tok) = [] := by
      have := congrArg String.data (Except.ok.inj h)
      exact this
    cases ps with
    | nil =>
      have := scanTrace_nil hp
      exact List.length_eq_zero.mp (by omega)
    | cons p ps =>
      exfalso
      have hne := passes_tok_ne_nil hp p (List.mem_cons_self _ _)
      rw [List.map_cons, writeAll_nil_cons] at hw
      obtain ⟨rest, hrest⟩ := writeAll_initial (ps.map Pass.tok) p.tok
      rw [hw] at hrest
      exact hne (List.append_eq_nil.mp hrest).1
  · intro h
    have hn : normalize w.data = [] := normalize_eq_nil_iff.mpr h
    have hp : passes w = .ok [] := by simp [passes, hn, scanTrace]
    rw [transcribe_eq hp]
    rfl

theorem digraphAt_append_left {a b : List Char} {i : Nat} (h : i + 1 < a.length) :
    digraphAt (a ++ b) i = digraphAt a i := by
  unfold digraphAt
  have h' : i + 1 < (a ++ b).length := by
    rw [List.length_append]
    omega
  rw [if_pos h, if_pos h', List.drop_append_of_le_length (by omega),
    List.take_append_of_le_length (by rw [List.length_drop]; omega)]

theorem digraphAt_seam (a' b' : List Char) (x y : Char) :
    digraphAt (a' ++ [x] ++ y :: b') a'.length = digraphToken [x, y] := by
  unfold digraphAt
  have h' : a'.length + 1 < (a' ++ [x] ++ y :: b').length := by
    simp only [List.length_append, List.length_cons, List.length_nil]
    omega
  rw [if_pos h', List.append_assoc, List.drop_left]
  rfl

theorem flankedBy_append_left {a b : List Char} {i : Nat} (h : i + 1 < a.length) :
    flankedBy (a ++ b) i = flankedBy a i := by
  unfold flankedBy
  have h' : i + 1 < (a ++ b).length := by
    rw [List.length_append]
    omega
  rw [List.getElem?_append_left (by omega : i - 1 < a.length),
    List.getElem?_append_left h]
  simp only [h, h', decide_True]

theorem step_append_left {a' b' : List Char} {x y : Char} {i : Nat} (hx : x ≠ 'f')
    (hxy : digraphToken [x, y] = none) (hi : i < (a' ++ [x]).length) :
    step (a' ++ [x] ++ y :: b') i = step (a' ++ [x]) i := by
  have hlen : (a' ++ [x]).length = a'.length + 1 := by simp
  have hc : (a' ++ [x] ++ y :: b')[i]? = some (a' ++ [x])[i] := by
    rw [List.getElem?_append_left hi, List.getElem?_eq_getElem hi]
  have hd : digraphAt (a' ++ [x] ++ y :: b') i = digraphAt (a' ++ [x]) i := by
    by_cases h : i + 1 < (a' ++ [x]).length
    · exact digraphAt_append_left h
    · have hi' : i = a'.length := by omega
      subst hi'
      rw [digraphAt_seam, hxy]
      unfold digraphAt
      rw [if_neg h]
  have hm : monoTok (a' ++ [x] ++ y :: b') i (a' ++ [x])[i] =
      monoTok (a' ++ [x]) i (a' ++ [x])[i] := by
    unfold monoTok
    by_cases hf : (a' ++ [x])[i] = 'f'
    · have h : i + 1 < (a' ++ [x]).length := by
        by_contra h
        have hi' : i = a'.length := by omega
        subst hi'
        simp at hf
        exact hx hf
      rw [flankedBy_append_left h]
    · rw [if_neg hf, if_neg hf]
  rw [step_eq, step_eq, hd, monograph_eq hc, monograph_eq (List.getElem?_eq_getElem hi), hm]

theorem digraphAt_append_right (a b : List Char) (j : Nat) :
    digraphAt (a ++ b) (a.length + j) = digraphAt b j := by
  unfold digraphAt
  rw [List.drop_append, List.length_append]
  by_cases h : j + 1 < b.length
  · rw [if_pos h, if_pos (by omega)]
  · rw [if_neg h, if_neg (by omega)]

theorem flankedBy_append_right {a b : List Char} {j : Nat} (hj : 0 < j) :
    flankedBy (a ++ b) (a.length + j) = flankedBy b j := by
  unfold flankedBy
  have h1 : (a ++ b)[a.length + j - 1]? = b[j - 1]? := by
    rw [List.getElem?_append_right (by omega)]
    congr 1
    omega
  have h2 : (a ++ b)[a.length + j + 1]? = b[j + 1]? := by
    rw [List.getElem?_append_right (by omega)]
    congr 1
    omega
  rw [h1, h2, List.length_append]
  have e1 : decide (0 < a.length + j) = decide (0 < j) := by
    simp only [hj, decide_True, decide_eq_true_eq]
    omega
  have e2 : decide (a.length + j + 1 < a.length + b.length) = decide (j + 1 < b.length) := by
    by_cases h : j + 1 < b.length
    · simp only [h, decide_True, decide_eq_true_eq]
      omega
    · simp only [h, decide_False, decide_eq_false_iff_not]
      omega
  rw [e1, e2]

theorem step_append_right {a b : List Char} {j k : Nat} {tok : List Char}
    (hy : b.head? ≠ some 'f') (hj : j < b.length) (hs : step b j = .ok (tok, k)) :
    step (a ++ b) (a.length + j) = .ok (tok, a.length + k) := by
  have hc : (a ++ b)[a.length + j]? = some b[j] := by
    rw [List.getElem?_append_right (by omega), ← List.getElem?_eq_getElem hj]
    congr 1
    omega
  have hm : monoTok (a ++ b) (a.length + j) b[j] = monoTok b j b[j] := by
    unfold monoTok
    by_cases hf : b[j] = 'f'
    · have hj0 : 0 < j := by
        by_contra h0
        have hz : j = 0 := by omega
        subst hz
        apply hy
        rw [List.head?_eq_getElem?, List.getElem?_eq_getElem hj, hf]
      rw [flankedBy_append_right hj0]
    · rw [if_neg hf, if_neg hf]
  rw [step_eq, monograph_eq (List.getElem?_eq_getElem hj)] at hs
  rw [step_eq, digraphAt_append_right, monograph_eq hc, hm]
  cases hd : digraphAt b j with
  | some t =>
    rw [hd] at hs
    simp only [Except.ok.injEq, Prod.mk.injEq] at hs ⊢
    obtain ⟨rfl, rfl⟩ := hs
    exact ⟨rfl, by omega⟩
  | none =>
    rw [hd] at hs
    simp only [Except.ok.injEq, Prod.mk.injEq] at hs ⊢
    obtain ⟨rfl, rfl⟩ := hs
    exact ⟨rfl, by omega⟩

theorem scanTrace_of_ge {runes : List Char} {i : Nat} (h : runes.length ≤ i) (fuel : Nat) :
    scanTrace runes fuel i = .ok [] := by
  have hi : ¬ i < runes.length := by omega
  cases fuel <;> simp [scanTrace, hi]

theorem scanTrace_append_right {a b : List Char} (hy : b.head? ≠ some 'f') :
    ∀ (ps : List Pass) (fuel j : Nat), scanTrace b fuel j = .ok ps →
      scanTrace (a ++ b) fuel (a.length + j) = .ok (ps.map (Pass.shift a.length)) := by
  intro ps
  induction ps with
  | nil =>
    intro fuel j h
    have := scanTrace_nil h
    exact scanTrace_of_ge (by rw [List.length_append]; omega) fuel
  | cons p ps ih =>
    intro fuel j h
    obtain ⟨f, rfl, hlt, hpos, hs, ht⟩ := scanTrace_cons h
    have hlt' : a.length + j < (a ++ b).length := by
      rw [List.length_append]
      omega
    rw [scanTrace_succ hlt' (step_append_right hy hlt hs), ih f p.next ht]
    simp [Pass.shift, hpos]

theorem scanTrace_append_left {a' b' : List Char} {x y : Char} (hx : x ≠ 'f')
    (hxy : digraphToken [x, y] = none) {fb : Nat} {psb : List Pass}
    (hfb : (y :: b').length ≤ fb)
    (hb : scanTrace (a' ++ [x] ++ y :: b') fb (a' ++ [x]).length = .ok psb) :
    ∀ (ps : List Pass) (fa i : Nat), scanTrace (a' ++ [x]) fa i = .ok ps →
      i ≤ (a' ++ [x]).length →
      scanTrace (a' ++ [x] ++ y :: b') (fa + fb) i = .ok (ps ++ psb) := by
  intro ps
  induction ps with
  | nil =>
    intro fa i h hi
    have := scanTrace_nil h
    have hi' : i = (a' ++ [x]).length := by omega
    subst hi'
    rw [scanTrace_fuel _ (fa + fb) fb _ _ _, hb]
    · rfl
    · rw [List.length_append (a' ++ [x])]
      omega
    · rw [List.length_append (a' ++ [x])]
      omega
  | cons p ps ih =>
    intro fa i h hi
    obtain ⟨f, rfl, hlt, hpos, hs, ht⟩ := scanTrace_cons h
    have hj : p.next ≤ (a' ++ [x]).length := by
      rcases step_cases hlt hs with ⟨-, -, h3⟩ | ⟨-, -, h3⟩ <;> exact h3
    have hlt' : i < (a' ++ [x] ++ y :: b').length := by
      rw [List.length_append (a' ++ [x])]
      omega
    have hs' : step (a' ++ [x] ++ y :: b') i = .ok (p.tok, p.next) := by
      rw [step_append_left hx hxy hlt, hs]
    have hfuel : f + 1 + fb = (f + fb) + 1 := by omega
    rw [hfuel, scanTrace_succ hlt' hs', ih f p.next ht hj]
    cases p
    simp only at hpos
    simp [hpos]

theorem trimmed_ends {a : List Char} (h : TrimSpace a = a) :
    a.dropWhile isSpace = a ∧ a.rdropWhile isSpace = a := by
  have h1 : a.dropWhile isSpace = a := by
    apply (List.dropWhile_suffix isSpace).eq_of_length_le
    have := (List.rdropWhile_prefix isSpace (a.dropWhile isSpace)).length_le
    unfold TrimSpace at h
    rw [h] at this
    exact this
  refine ⟨h1, ?_⟩
  unfold TrimSpace at h
  rw [h1] at h
  exact h

theorem TrimSpace_append {a b : List Char} (ha : a ≠ []) (hb : b ≠ [])
    (hta : TrimSpace a = a) (htb : TrimSpace b = b) : TrimSpace (a ++ b) = a ++ b := by
  have h1 : (a ++ b).dropWhile isSpace = a ++ b := by
    cases a with
    | nil => exact absurd rfl ha
    | cons x a' =>
      have := List.dropWhile_eq_self_iff.mp (trimmed_ends hta).1 (by simp)
      rw [List.dropWhile_eq_self_iff]
      intro hl
      simpa using this
  have h2 : (a ++ b).rdropWhile isSpace = a ++ b := by
    rw [List.rdropWhile_eq_self_iff]
    intro hl
    rw [List.getLast_append_of_ne_nil hb]
    exact List.rdropWhile_eq_self_iff.mp (trimmed_ends htb).2 hb
  unfold TrimSpace
  rw [h1, h2]

theorem normalize_append {a b : List Char} (ha : a ≠ []) (hb : b ≠ [])
    (hta : TrimSpace a = a) (hla : ToLower a = a) (htb : TrimSpace b = b)
    (hlb : ToLower b = b) : normalize (a ++ b) = a ++ b := by
  unfold normalize
  rw [TrimSpace_append ha hb hta htb]
  unfold ToLower at hla hlb ⊢
  rw [List.map_append, hla, hlb]

theorem writeAll_ne_nil {toks : List (List Char)} (h : toks ≠ [])
    (hne : ∀ t ∈ toks, t ≠ []) : writeAll [] toks ≠ [] := by
  cases toks with
  | nil => exact absurd rfl h
  | cons t ts =>
    rw [writeAll_nil_cons]
    obtain ⟨rest, hrest⟩ := writeAll_initial ts t
    intro e
    rw [e] at hrest
    exact hne t (List.mem_cons_self _ _) (List.append_eq_nil.mp hrest).1

theorem writeAll_append_tokens {ta tb : List (List Char)} (ha : ta ≠ []) (hb : tb ≠ [])
    (hna : ∀ t ∈ ta, t ≠ []) (hnb : ∀ t ∈ tb, t ≠ []) :
    writeAll [] (ta ++ tb) = writeAll [] ta ++ ['-'] ++ writeAll [] tb := by
  have hra := writeAll_ne_nil ha hna
  have hsplit : writeAll [] (ta ++ tb) = writeAll (writeAll [] ta) tb := by
    unfold writeAll
    rw [List.foldl_append]
  rw [hsplit]
  cases tb with
  | nil => exact absurd rfl hb
  | cons u us =>
    rw [writeAll_cons, writeToken_of_ne_nil hra, writeAll_nil_cons,
      writeAll_append_left us _ u (hnb u (List.mem_cons_self _ _))]

theorem scanTrace_tok_ne_nil {runes : List Char} {fuel i : Nat} {ps : List Pass}
    (hp : scanTrace runes fuel i = .ok ps) : ∀ t ∈ ps.map Pass.tok, t ≠ [] := by
  intro t ht
  obtain ⟨p, hm, rfl⟩ := List.mem_map.mp ht
  obtain ⟨hlt, hs⟩ := scanTrace_steps _ _ _ _ hp p hm
  exact (step_tok_spec hlt hs).1

theorem scanLoop_append {a' b' : List Char} {x y : Char} (hx : x ≠ 'f') (hy : y ≠ 'f')
    (hxy : digraphToken [x, y] = none) :
    ∃ ra rb, scanLoop (a' ++ [x]) (a' ++ [x]).length 0 [] = .ok ra ∧
      scanLoop (y :: b') (y :: b').length 0 [] = .ok rb ∧
      scanLoop (a' ++ [x] ++ y :: b') (a' ++ [x] ++ y :: b').length 0 [] =
        .ok (ra ++ ['-'] ++ rb) := by
  obtain ⟨psa, hpa⟩ := scanTrace_total (a' ++ [x]) (a' ++ [x]).length 0 (by omega)
  obtain ⟨psb, hpb⟩ := scanTrace_total (y :: b') (y :: b').length 0 (by omega)
  have hyh : (y :: b').head? ≠ some 'f' := by
    simpa using hy
  have hb' := scanTrace_append_right (a := a' ++ [x]) hyh psb _ 0 hpb
  rw [Nat.add_zero] at hb'
  have hab := scanTrace_append_left hx hxy (Nat.le_refl _) hb' psa _ 0 hpa (Nat.zero_le _)
  rw [← List.length_append] at hab
  have hpsa : psa ≠ [] := by
    intro e
    rw [e] at hpa
    have := scanTrace_nil hpa
    simp at this
  have hpsb : psb ≠ [] := by
    intro e
    rw [e] at hpb
    have := scanTrace_nil hpb
    simp at this
  refine ⟨writeAll [] (psa.map Pass.tok), writeAll [] (psb.map Pass.tok), ?_, ?_, ?_⟩
  · rw [scanLoop_eq_trace, hpa]
  · rw [scanLoop_eq_trace, hpb]
  · rw [scanLoop_eq_trace, hab]
    have hmap : (psa ++ psb.map (Pass.shift (a' ++ [x]).length)).map Pass.tok =
        psa.map Pass.tok ++ psb.map Pass.tok := by
      rw [List.map_append, List.map_map]
      rfl
    simp only [hmap]
    rw [writeAll_append_tokens (by simpa using hpsa) (by simpa using hpsb)
      (scanTrace_tok_ne_nil hpa) (scanTrace_tok_ne_nil hpb)]

theorem transcribe_of_normal {w : String} (hn : normalize w.data = w.data)
    (hw : w.data ≠ []) :
    transcribe w =
      match scanLoop w.data w.data.length 0 [] with
      | .error e => .error e
      | .ok r => .ok (String.mk r) := by
  unfold transcribe transcribeRunes
  simp only [hn, hw, if_false]

theorem scanLoop_succ {runes : List Char} {i j : Nat} {tok : List Char} (fuel : Nat)
    (result : List Char) (hi : i < runes.length) (hs : step runes i = .ok (tok, j)) :
    scanLoop runes (fuel + 1) i result = scanLoop runes fuel j (writeToken result tok) := by
  rw [scanLoop]
  simp only [hi, if_true, hs]
  rfl

theorem scanLoop_of_ge {runes : List Char} {i : Nat} (h : runes.length ≤ i) (fuel : Nat)
    (result : List Char) : scanLoop runes fuel i result = .ok result := by
  have hi : ¬ i < runes.length := by omega
  cases fuel <;> simp [scanLoop, hi]

theorem scanLoop_unroll (runes : List Char) :
    ∀ (ps : List Pass) (f i : Nat), scanTrace runes f i = .ok ps →
      ∀ k, k ≤ ps.length → ∀ (fuel : Nat) (result : List Char),
        scanLoop runes (k + fuel) i result =
          scanLoop runes fuel (cursorAfter i (ps.take k))
            (writeAll result ((ps.take k).map Pass.tok)) := by
  intro ps
  induction ps with
  | nil =>
    intro f i _ k hk fuel result
    have hk0 : k = 0 := by simpa using hk
    subst hk0
    rw [Nat.zero_add]
    rfl
  | cons p ps ih =>
    intro f i h k hk fuel result
    cases k with
    | zero =>
      rw [Nat.zero_add]
      rfl
    | succ k =>
      obtain ⟨f', -, hlt, -, hs, ht⟩ := scanTrace_cons h
      have hk' : k ≤ ps.length := by
        rw [List.length_cons] at hk
        omega
      have hfuel : k + 1 + fuel = (k + fuel) + 1 := by omega
      rw [hfuel, scanLoop_succ _ _ hlt hs, ih f' p.next ht k hk' fuel]
      rfl

theorem cursorAfter_take_lt (runes : List Char) :
    ∀ (ps : List Pass) (f i : Nat), scanTrace runes f i = .ok ps →
      ∀ k, k < ps.length → cursorAfter i (ps.take k) < runes.length := by
  intro ps
  induction ps with
  | nil =>
    intro f i _ k hk
    simp at hk
  | cons p ps ih =>
    intro f i h k hk
    obtain ⟨f', -, hlt, -, -, ht⟩ := scanTrace_cons h
    cases k with
    | zero => exact hlt
    | succ k =>
      rw [List.length_cons] at hk
      exact ih f' p.next ht k (by omega)

theorem scanLoop_budget {runes : List Char} {f : Nat} {ps : List Pass}
    (h : scanTrace runes f 0 = .ok ps) :
    (∀ fuel, ps.length ≤ fuel →
      scanLoop runes fuel 0 [] = .ok (writeAll [] (ps.map Pass.tok))) ∧
    (∀ fuel, fuel < ps.length → scanLoop runes fuel 0 [] = .error .outOfFuel) := by
  constructor
  · intro fuel hf
    have hfuel : fuel = ps.length + (fuel - ps.length) := by omega
    rw [hfuel, scanLoop_unroll runes ps f 0 h ps.length (Nat.le_refl _), List.take_length]
    have hc := (scanTrace_account runes ps f 0 h (Nat.zero_le _)).2.1
    exact scanLoop_of_ge (by omega) _ _
  · intro fuel hf
    have hc := cursorAfter_take_lt runes ps f 0 h fuel hf
    have hu := scanLoop_unroll runes ps f 0 h fuel (by omega) 0 []
    rw [Nat.add_zero] at hu
    rw [hu]
    simp [scanLoop, hc]

theorem caseRanges_reach_f :
    caseRanges.all (fun e => decide (0x66 < e.target) ||
      decide (e.target + (e.hi - e.lo) < 0x66) || (e.lo == 0x41 && e.target == 0x61)) = true := by
  decide!

theorem lowerTable_eq_f {n : Nat} (h : lowerTable n = 0x66) : n = 0x66 ∨ n = 0x46 := by
  rcases lowerTable_spec n with ⟨-, h'⟩ | ⟨e, he, hm, h'⟩
  · left
    rw [h'] at h
    exact h
  · right
    rw [h'] at h
    have hc := List.all_eq_true.mp caseRanges_reach_f e he
    simp only [Bool.or_eq_true, Bool.and_eq_true, decide_eq_true_eq, beq_iff_eq] at hc
    rw [moves_iff] at hm
    omega

theorem toLowerRune_eq_f {c : Char} (h : toLowerRune c = 'f') : c = 'f' ∨ c = 'F' := by
  have hn : lowerTable c.toNat = 0x66 := by
    rw [← toNat_toLowerRune, h]
    rfl
  rcases lowerTable_eq_f hn with e | e
  · left
    rw [← Char.ofNat_toNat c, e]
  · right
    rw [← Char.ofNat_toNat c, e]

theorem mem_of_mem_TrimSpace {s : List Char} {c : Char} (h : c ∈ TrimSpace s) : c ∈ s :=
  (List.dropWhile_suffix isSpace).subset
    ((List.rdropWhile_prefix isSpace (s.dropWhile isSpace)).subset h)

theorem f_mem_normalize {s : List Char} (h : 'f' ∈ normalize s) : 'f' ∈ s ∨ 'F' ∈ s := by
  unfold normalize ToLower at h
  obtain ⟨c, hc, hl⟩ := List.mem_map.mp h
  have hs := mem_of_mem_TrimSpace hc
  rcases toLowerRune_eq_f hl with e | e
  · exact Or.inl (e ▸ hs)
  · exact Or.inr (e ▸ hs)

theorem transcribe_eq_intercalate {w : String} {ps : List Pass} (hp : passes w = .ok ps) :
    transcribe w = .ok ("-".intercalate (ps.map (fun p => String.mk p.tok))) := by
  rw [transcribe_eq hp]
  have hne : ∀ t ∈ ps.map Pass.tok, t ≠ [] := by
    intro t ht
    obtain ⟨p, hm, rfl⟩ := List.mem_map.mp ht
    exact passes_tok_ne_nil hp p hm
  have hmap : ps.map (fun p => String.mk p.tok) = (ps.map Pass.tok).map String.mk := by
    rw [List.map_map]
    rfl
  rw [hmap]
  generalize ps.map Pass.tok = toks at hne
  cases toks with
  | nil => rfl
  | cons t ts =>
    rw [writeAll_nil_cons, List.map_cons, String.intercalate,
      intercalate_go_eq ts t (hne t (List.mem_cons_self _ _))]

/-! # The claims -/

/-- C1: `transcribe("þingvellir")` returns exactly `"th-i-n-g-v-eh-tl-i-r"`;
the scan emits th, i, n, g, v, eh, tl, i, r, the pass for `ll` starting at
cursor 6 and leaving the cursor at 8. -/
theorem C1_thingvellir :
    transcribe "þingvellir" = .ok "th-i-n-g-v-eh-tl-i-r" ∧
    emitted "þingvellir" = .ok ["th", "i", "n", "g", "v", "eh", "tl", "i", "r"] ∧
    passes "þingvellir" = .ok
      [ Pass.mk 0 ['t', 'h'] 1, Pass.mk 1 ['i'] 2, Pass.mk 2 ['n'] 3, Pass.mk 3 ['g'] 4,
        Pass.mk 4 ['v'] 5, Pass.mk 5 ['e', 'h'] 6, Pass.mk 6 ['t', 'l'] 8,
        Pass.mk 8 ['i'] 9, Pass.mk 9 ['r'] 10 ] :=
  ⟨rfl, rfl, rfl⟩

/-- C2: for every input that is empty or consists only of white space,
`transcribe` returns the empty string, and the scan emits no token. -/
theorem C2_blank_input (w : String) (h : ∀ c ∈ w.data, isSpace c = true) :
    transcribe w = .ok "" ∧ emitted w = .ok [] := by
  have hn : normalize w.data = [] := by simp [normalize, TrimSpace_eq_nil h, ToLower]
  have hp : passes w = .ok [] := by simp [passes, hn, scanTrace]
  refine ⟨?_, ?_⟩
  · rw [transcribe_eq hp]
    rfl
  · simp [emitted, hp]

theorem C2_blank_input_witness :
    transcribe " \t\n\u00a0\u3000" = .ok "" ∧ emitted " \t\n\u00a0\u3000" = .ok [] :=
  C2_blank_input " \t\n\u00a0\u3000" (by decide)

/-- C3: normalisation invariance. For every string `w`, `transcribe w` equals
`transcribe` of `lower(trim(w))`; so every `w` whose normal form is the word
`v` transcribes to the same result as `v`. -/
theorem C3_normalisation_invariance :
    (∀ w : String, transcribe w = transcribe (String.mk (normalize w.data))) ∧
    (∀ v w : String, normalize w.data = v.data → transcribe w = transcribe v) := by
  have h1 : ∀ w : String, transcribe w = transcribe (String.mk (normalize w.data)) := by
    intro w
    unfold transcribe
    rw [transcribeRunes_normalize]
  refine ⟨h1, ?_⟩
  intro v w h
  rw [h1 w, h]

theorem C3_normalisation_invariance_witness :
    transcribe "  ÞingVELLIR\t" = transcribe "þingvellir" :=
  C3_normalisation_invariance.2 "þingvellir" "  ÞingVELLIR\t" (by rfl)

/-- C4: digraph priority. At every cursor `i` with `i+1 < n` whose two
characters form a digraph pattern, the pass writes the digraph's token and
leaves the cursor at `i+2` (no single-character rule contributes); for every
digraph pattern `d` with token `t` and every `s` with `d ++ s` already trimmed
and lower-case, the first pass over `d ++ s` writes `t` and consumes two
characters and the result starts with `t`; and `transcribe("au")` is `"oy"`,
not `"a-uh"`. -/
theorem C4_digraph_priority :
    (∀ (runes : List Char) (i : Nat) (d t : List Char), (d, t) ∈ digraphRules →
      i + 1 < runes.length → (runes.drop i).take 2 = d → step runes i = .ok (t, i + 2)) ∧
    (∀ (d t s : List Char), (d, t) ∈ digraphRules → normalize (d ++ s) = d ++ s →
      ∃ ps r, passes (String.mk (d ++ s)) = .ok (Pass.mk 0 t 2 :: ps) ∧
        transcribe (String.mk (d ++ s)) = .ok (String.mk r) ∧ t <+: r) ∧
    transcribe "au" = .ok "oy" ∧ transcribe "au" ≠ .ok "a-uh" := by
  refine ⟨fun runes i d t hr hi hd => step_digraph hr hi hd, ?_, rfl, by decide⟩
  intro d t s hr hn
  have hlen : d.length = 2 := digraphRules_length _ hr
  have hi : 0 + 1 < (d ++ s).length := by
    rw [List.length_append]
    omega
  have hd : ((d ++ s).drop 0).take 2 = d := by
    rw [List.drop_zero, ← hlen, List.take_left']
    rfl
  have hs : step (d ++ s) 0 = .ok (t, 2) := step_digraph hr hi hd
  obtain ⟨ps, hps⟩ := scanTrace_total (d ++ s) ((d ++ s).length - 1) 2 (by omega)
  have hp : passes (String.mk (d ++ s)) = .ok (Pass.mk 0 t 2 :: ps) := by
    unfold passes
    simp only [hn]
    have hl : (d ++ s).length = ((d ++ s).length - 1) + 1 := by omega
    rw [hl, scanTrace_succ (by omega) hs, hps]
  refine ⟨ps, _, hp, transcribe_eq hp, ?_⟩
  simp only [List.map_cons, writeAll, List.foldl_cons]
  have h0 : writeToken [] t = t := by simp [writeToken]
  rw [h0]
  exact writeAll_initial _ _

theorem C4_digraph_priority_witness :
    step "rhvalur".data 1 = .ok (['k', 'v'], 3) ∧
    ∃ ps r, passes (String.mk ("hv".data ++ "alur".data)) = .ok (Pass.mk 0 "kv".data 2 :: ps) ∧
        transcribe (String.mk ("hv".data ++ "alur".data)) = .ok (String.mk r) ∧ "kv".data <+: r :=
  ⟨C4_digraph_priority.1 "rhvalur".data 1 "hv".data "kv".data (by decide) (by decide) (by decide),
   C4_digraph_priority.2.1 "hv".data "kv".data "alur".data (by decide) (by rfl)⟩

/-- C5: the context-sensitive `f`. At every cursor `i` where the character is
`'f'` and no digraph matches, the pass writes one token and moves the cursor
by one; the token is `"v"` if and only if `0 < i < n-1` and both source
characters `runes[i-1]` and `runes[i+1]` are in the vowel set, and is `"f"`
otherwise. In particular `"afa"` gives `"a-v-a"`, `"fa"` gives `"f-a"`, `"af"`
gives `"a-f"`, and `"eyfa"` gives `"ay-v-a"`, where the `y` before the `f` was
consumed by the digraph `ey`. -/
theorem C5_context_sensitive_f :
    (∀ (runes : List Char) (i : Nat), runes[i]? = some 'f' → digraphAt runes i = none →
      ∃ tok, step runes i = .ok (tok, i + 1) ∧ (tok = ['v'] ∨ tok = ['f']) ∧
        (tok = ['v'] ↔
          0 < i ∧ i < runes.length - 1 ∧
            ∃ p q, runes[i - 1]? = some p ∧ runes[i + 1]? = some q ∧
              isVowel p = true ∧ isVowel q = true)) ∧
    transcribe "afa" = .ok "a-v-a" ∧ transcribe "fa" = .ok "f-a" ∧
    transcribe "af" = .ok "a-f" ∧ transcribe "eyfa" = .ok "ay-v-a" ∧
    passes "eyfa" = .ok [Pass.mk 0 ['a', 'y'] 2, Pass.mk 2 ['v'] 3, Pass.mk 3 ['a'] 4] := by
  refine ⟨?_, rfl, rfl, rfl, rfl, rfl⟩
  intro runes i hc hd
  refine ⟨monoTok runes i 'f', step_monograph hc hd, ?_, ?_⟩
  · unfold monoTok
    cases flankedBy runes i <;> simp
  · rw [← flankedBy_iff]
    unfold monoTok
    cases flankedBy runes i <;> simp

theorem C5_context_sensitive_f_witness :
    ∃ tok, step "safar".data 2 = .ok (tok, 2 + 1) ∧ (tok = ['v'] ∨ tok = ['f']) ∧
      (tok = ['v'] ↔
        0 < 2 ∧ 2 < "safar".data.length - 1 ∧
          ∃ p q, "safar".data[2 - 1]? = some p ∧ "safar".data[2 + 1]? = some q ∧
            isVowel p = true ∧ isVowel q = true) :=
  C5_context_sensitive_f.1 "safar".data 2 (by decide) (by decide)

/-- C6: pass-through. At every cursor where no digraph matches and the
character has no case of its own in the `switch char`, the pass writes exactly
that one character and moves the cursor by one; so for every single character
`c` that is not white space, is fixed by lower-casing and is no monograph-rule
key, `transcribe` of the one-character word `c` is `c`, e.g. `"q"` and `"ü"`.
A character that lower-casing changes comes back lower-cased instead: `"Q"`
gives `"q"`, U+A7DA gives U+A7DB and U+1C89 gives U+1C8A. -/
theorem C6_pass_through :
    (∀ (runes : List Char) (i : Nat) (c : Char), runes[i]? = some c →
      digraphAt runes i = none → c ∉ monographKeys → step runes i = .ok ([c], i + 1)) ∧
    (∀ c : Char, isSpace c = false → toLowerRune c = c → c ∉ monographKeys →
      transcribe (String.singleton c) = .ok (String.singleton c)) ∧
    transcribe "q" = .ok "q" ∧ transcribe "ü" = .ok "ü" ∧
    transcribe "Q" = .ok "q" ∧ transcribe "\ua7da" = .ok "\ua7db" ∧
    transcribe "\u1c89" = .ok "\u1c8a" ∧ transcribe "\ua7db" = .ok "\ua7db" := by
  have hmono : ∀ (runes : List Char) (i : Nat) (c : Char), c ∉ monographKeys →
      monoTok runes i c = [c] := by
    intro runes i c hk
    have hf : c ≠ 'f' := fun h => hk (h ▸ List.mem_cons_self _ _)
    have hn : monographRules.lookup c = none := by
      rw [List.lookup_eq_none_iff]
      intro p hp
      have : c ≠ p.1 :=
        fun e => hk (List.mem_cons_of_mem _ (e ▸ List.mem_map_of_mem Prod.fst hp))
      simpa using this
    unfold monoTok
    rw [if_neg hf, hn]
    rfl
  have h1 : ∀ (runes : List Char) (i : Nat) (c : Char), runes[i]? = some c →
      digraphAt runes i = none → c ∉ monographKeys → step runes i = .ok ([c], i + 1) := by
    intro runes i c hc hd hk
    rw [step_monograph hc hd, hmono runes i c hk]
  refine ⟨h1, ?_, rfl, rfl, rfl, rfl, rfl, rfl⟩
  intro c hs hl hk
  have hn : normalize [c] = [c] := by
    simp [normalize, TrimSpace, List.rdropWhile, hs, ToLower, hl]
  have hstep : step [c] 0 = .ok ([c], 1) := h1 [c] 0 c rfl (by simp [digraphAt]) hk
  have hp : passes (String.singleton c) = .ok [Pass.mk 0 [c] 1] := by
    have hd : (String.singleton c).data = [c] := rfl
    unfold passes
    simp only [hd, hn, List.length_singleton]
    rw [scanTrace_succ (by simp) hstep]
    simp [scanTrace]
  rw [transcribe_eq hp]
  rfl

theorem C6_pass_through_witness :
    step "bær".data 0 = .ok (['b'], 0 + 1) ∧
    transcribe (String.singleton 'x') = .ok (String.singleton 'x') :=
  ⟨C6_pass_through.1 "bær".data 0 'b' (by decide) (by decide) (by decide),
   C6_pass_through.2.1 'x' (by decide) (by rfl) (by decide)⟩

/-- C7, as amended: for every input whose normalised word holds no hyphen, if
the scan emits `k ≥ 1` tokens then the returned string holds exactly `k-1`
hyphens and neither begins nor ends with a hyphen. -/
theorem C7_separator_count (w : String) (hh : '-' ∉ normalize w.data) :
    ∃ ps r, passes w = .ok ps ∧ transcribe w = .ok r ∧
      (1 ≤ ps.length →
        r.data.count '-' = ps.length - 1 ∧ r.data.head? ≠ some '-' ∧
          r.data.getLast? ≠ some '-') := by
  obtain ⟨ps, hp⟩ := passes_total w
  refine ⟨ps, _, hp, transcribe_eq hp, ?_⟩
  intro hk
  have htoks := passes_tokens hp hh
  have hlen : (ps.map Pass.tok).length = ps.length := List.length_map _ _
  show (writeAll [] (ps.map Pass.tok)).count '-' = ps.length - 1 ∧
    (writeAll [] (ps.map Pass.tok)).head? ≠ some '-' ∧
    (writeAll [] (ps.map Pass.tok)).getLast? ≠ some '-'
  rw [← hlen] at hk ⊢
  generalize ps.map Pass.tok = toks at htoks hk
  cases toks with
  | nil => simp at hk
  | cons t ts =>
    have ht := htoks t (List.mem_cons_self _ _)
    have hts : ∀ u ∈ ts, u ≠ [] ∧ '-' ∉ u := fun u hu => htoks u (List.mem_cons_of_mem _ hu)
    have h0 : writeAll [] (t :: ts) = writeAll t ts := by
      simp [writeAll, writeToken]
    refine ⟨?_, ?_, ?_⟩
    · rw [h0, count_writeAll ts (fun u hu => (hts u hu).1) (fun u hu => (hts u hu).2) t ht.1,
        List.count_eq_zero_of_not_mem ht.2]
      simp
    · rw [h0]
      obtain ⟨rest, hrest⟩ := writeAll_initial ts t
      cases t with
      | nil => exact absurd rfl ht.1
      | cons x t' =>
        rw [← hrest]
        simp only [List.cons_append, List.head?_cons, ne_eq, Option.some.injEq]
        exact fun e => ht.2 (e ▸ List.mem_cons_self _ _)
    · obtain ⟨pre, u, hu, he⟩ := writeAll_final (t :: ts) [] (List.cons_ne_nil _ _)
      rw [he, List.getLast?_append_of_ne_nil _ (htoks u hu).1]
      intro e
      exact (htoks u hu).2 (List.mem_of_getLast?_eq_some e)

theorem C7_separator_count_witness :
    ∃ ps r, passes "Hvalfjörður" = .ok ps ∧ transcribe "Hvalfjörður" = .ok r ∧
      (1 ≤ ps.length →
        r.data.count '-' = ps.length - 1 ∧ r.data.head? ≠ some '-' ∧
          r.data.getLast? ≠ some '-') :=
  C7_separator_count "Hvalfjörður" (by decide)

/-- C7 as stated fails: the word `"a-b"` is scanned in three passes, the
hyphen passing through as a token of its own, and the result `"a---b"` holds
three hyphens, not two; the word `"-"` gives one token and the result `"-"`,
which begins and ends with a hyphen. -/
theorem C7_hyphen_counterexample :
    passes "a-b" = .ok [Pass.mk 0 ['a'] 1, Pass.mk 1 ['-'] 2, Pass.mk 2 ['b'] 3] ∧
    transcribe "a-b" = .ok "a---b" ∧
    passes "-" = .ok [Pass.mk 0 ['-'] 1] ∧ transcribe "-" = .ok "-" ∧
    ¬ (∀ (w : String) (ps : List Pass) (r : String), passes w = .ok ps →
        transcribe w = .ok r → 1 ≤ ps.length →
        r.data.count '-' = ps.length - 1 ∧ r.data.head? ≠ some '-' ∧
          r.data.getLast? ≠ some '-') := by
  refine ⟨rfl, rfl, rfl, rfl, ?_⟩
  intro h
  have h3 := (h "a-b" _ "a---b" rfl rfl (by decide)).1
  revert h3
  decide

/-- C8: the digraph rule table. Each two-character pattern alone gives the
listed token (`au→oy`, `ey→ay`, `ei→ay`, `hv→kv`, `ll→tl`, `fn→pn`, `rl→rtl`,
`rn→rtn`), and no other pattern is treated as a digraph: the `switch digraph`
has a matching case exactly for these eight, and a pass that moves the cursor
by two has read one of them and written its token. -/
theorem C8_digraph_table :
    (transcribe "au" = .ok "oy" ∧ transcribe "ey" = .ok "ay" ∧ transcribe "ei" = .ok "ay" ∧
      transcribe "hv" = .ok "kv" ∧ transcribe "ll" = .ok "tl" ∧ transcribe "fn" = .ok "pn" ∧
      transcribe "rl" = .ok "rtl" ∧ transcribe "rn" = .ok "rtn") ∧
    (∀ d : List Char, (digraphToken d).isSome = true ↔
      d ∈ ["au".data, "ey".data, "ei".data, "hv".data, "ll".data, "fn".data, "rl".data,
        "rn".data]) ∧
    (∀ (runes : List Char) (i : Nat) (tok : List Char), step runes i = .ok (tok, i + 2) →
      ((runes.drop i).take 2, tok) ∈ digraphRules) := by
  refine ⟨⟨rfl, rfl, rfl, rfl, rfl, rfl, rfl, rfl⟩, ?_, ?_⟩
  · intro d
    have hk : (["au".data, "ey".data, "ei".data, "hv".data, "ll".data, "fn".data, "rl".data,
        "rn".data] : List (List Char)) = digraphRules.map Prod.fst := rfl
    rw [hk, digraphToken_eq_lookup, List.lookup_isSome_iff]
    simp only [beq_iff_eq, List.mem_map]
    constructor
    · rintro ⟨p, hp, rfl⟩
      exact ⟨p, hp, rfl⟩
    · rintro ⟨p, hp, rfl⟩
      exact ⟨p, hp, rfl⟩
  · intro runes i tok hs
    rw [step_eq] at hs
    cases hd : digraphAt runes i with
    | some t =>
      rw [hd] at hs
      simp only [Except.ok.injEq, Prod.mk.injEq, and_true] at hs
      subst hs
      have hlt := digraphAt_lt hd
      unfold digraphAt at hd
      rw [if_pos hlt] at hd
      exact digraphToken_iff.mp hd
    | none =>
      rw [hd] at hs
      have hlt : i < runes.length := by
        by_contra hge
        have hnone : runes[i]? = none := List.getElem?_eq_none (by omega)
        simp [monograph, indexRunes, hnone] at hs
      rw [monograph_eq (List.getElem?_eq_getElem hlt)] at hs
      simp at hs

theorem C8_digraph_table_witness :
    (("rn".data.drop 0).take 2, "rtn".data) ∈ digraphRules :=
  C8_digraph_table.2.2 "rn".data 0 "rtn".data (by rfl)

/-- C9: the monograph rule table. Each one-character word gives the listed
token (`á→ow`, `é→yeh`, `í→ee`, `ý→ee`, `ó→oh`, `ú→oo`, `æ→eye`, `ö→ur`,
`þ→th`, `ð→th`, `j→y`, `g→g`, `f→f`, `a→a`, `e→eh`, `i→i`, `y→i`, `o→o`,
`u→uh`), and a pass at any cursor of a longer word where no digraph matches
writes the same token for that character (other than `'f'`) and moves the
cursor by one. -/
theorem C9_monograph_table :
    (transcribe "á" = .ok "ow" ∧ transcribe "é" = .ok "yeh" ∧ transcribe "í" = .ok "ee" ∧
      transcribe "ý" = .ok "ee" ∧ transcribe "ó" = .ok "oh" ∧ transcribe "ú" = .ok "oo" ∧
      transcribe "æ" = .ok "eye" ∧ transcribe "ö" = .ok "ur" ∧ transcribe "þ" = .ok "th" ∧
      transcribe "ð" = .ok "th" ∧ transcribe "j" = .ok "y" ∧ transcribe "g" = .ok "g" ∧
      transcribe "f" = .ok "f" ∧ transcribe "a" = .ok "a" ∧ transcribe "e" = .ok "eh" ∧
      transcribe "i" = .ok "i" ∧ transcribe "y" = .ok "i" ∧ transcribe "o" = .ok "o" ∧
      transcribe "u" = .ok "uh") ∧
    (∀ (runes : List Char) (i : Nat) (c : Char) (t : List Char), (c, t) ∈ monographRules →
      runes[i]? = some c → digraphAt runes i = none → step runes i = .ok (t, i + 1)) := by
  refine ⟨⟨rfl, rfl, rfl, rfl, rfl, rfl, rfl, rfl, rfl, rfl, rfl, rfl, rfl, rfl, rfl, rfl, rfl,
    rfl, rfl⟩, ?_⟩
  intro runes i c t hr hc hd
  rw [step_monograph hc hd]
  have ht : monoTok runes i c = t := by
    simp only [monographRules, List.mem_cons, List.mem_singleton, List.not_mem_nil, or_false,
      Prod.mk.injEq] at hr
    rcases hr with ⟨h, h'⟩ | ⟨h, h'⟩ | ⟨h, h'⟩ | ⟨h, h'⟩ | ⟨h, h'⟩ | ⟨h, h'⟩ | ⟨h, h'⟩ |
      ⟨h, h'⟩ | ⟨h, h'⟩ | ⟨h, h'⟩ | ⟨h, h'⟩ | ⟨h, h'⟩ | ⟨h, h'⟩ | ⟨h, h'⟩ | ⟨h, h'⟩ |
      ⟨h, h'⟩ | ⟨h, h'⟩ | ⟨h, h'⟩ <;> (subst h; subst h'; rfl)
  rw [ht]

theorem C9_monograph_table_witness :
    step "þú".data 1 = .ok ("oo".data, 1 + 1) :=
  C9_monograph_table.2 "þú".data 1 'ú' "oo".data (by decide) (by decide) (by decide)

/-- C10: case folding keeps diacritics. For each of the upper-case letters
Á, É, Í, Ý, Ó, Ú, Æ, Ö, Þ, Ð, `transcribe` of the upper-case letter equals
`transcribe` of its lower-case form (ow, yeh, ee, ee, oh, oo, eye, ur, th, th),
not the token of the unaccented base letter; `transcribe("ÞINGVELLIR")` is
`"th-i-n-g-v-eh-tl-i-r"`. -/
theorem C10_case_folding_keeps_diacritics :
    (transcribe "Á" = transcribe "á" ∧ transcribe "Á" = .ok "ow") ∧
    (transcribe "É" = transcribe "é" ∧ transcribe "É" = .ok "yeh") ∧
    (transcribe "Í" = transcribe "í" ∧ transcribe "Í" = .ok "ee") ∧
    (transcribe "Ý" = transcribe "ý" ∧ transcribe "Ý" = .ok "ee") ∧
    (transcribe "Ó" = transcribe "ó" ∧ transcribe "Ó" = .ok "oh") ∧
    (transcribe "Ú" = transcribe "ú" ∧ transcribe "Ú" = .ok "oo") ∧
    (transcribe "Æ" = transcribe "æ" ∧ transcribe "Æ" = .ok "eye") ∧
    (transcribe "Ö" = transcribe "ö" ∧ transcribe "Ö" = .ok "ur") ∧
    (transcribe "Þ" = transcribe "þ" ∧ transcribe "Þ" = .ok "th") ∧
    (transcribe "Ð" = transcribe "ð" ∧ transcribe "Ð" = .ok "th") ∧
    transcribe "Á" ≠ transcribe "a" ∧ transcribe "É" ≠ transcribe "e" ∧
    transcribe "Í" ≠ transcribe "i" ∧ transcribe "Ý" ≠ transcribe "y" ∧
    transcribe "Ó" ≠ transcribe "o" ∧ transcribe "Ú" ≠ transcribe "u" ∧
    transcribe "Ö" ≠ transcribe "o" ∧
    ToLower "ÁÉÍÝÓÚÆÖÞÐ".data = "áéíýóúæöþð".data ∧
    transcribe "ÞINGVELLIR" = .ok "th-i-n-g-v-eh-tl-i-r" := by
  refine ⟨⟨rfl, rfl⟩, ⟨rfl, rfl⟩, ⟨rfl, rfl⟩, ⟨rfl, rfl⟩, ⟨rfl, rfl⟩, ⟨rfl, rfl⟩, ⟨rfl, rfl⟩,
    ⟨rfl, rfl⟩, ⟨rfl, rfl⟩, ⟨rfl, rfl⟩, ?_, ?_, ?_, ?_, ?_, ?_, ?_, rfl, rfl⟩ <;> decide

/-- C11: the code falls short of its own description of `isVowel` ("includes
all Icelandic vowel forms"): of the fourteen Icelandic vowel letters it
accepts twelve and rejects plain `o` and plain `u`, so the `f` of `"ofu"` is
not voiced and the result is `"o-f-uh"`, not `"o-v-uh"`. -/
theorem C11_isVowel_rejects_o_and_u :
    isVowel 'o' = false ∧ isVowel 'u' = false ∧
    (∀ r ∈ ['a', 'á', 'e', 'é', 'i', 'í', 'ó', 'ú', 'y', 'ý', 'æ', 'ö'], isVowel r = true) ∧
    transcribe "ofu" = .ok "o-f-uh" ∧ transcribe "ofu" ≠ .ok "o-v-uh" ∧
    transcribe "ófú" = .ok "oh-v-oo" := by
  refine ⟨rfl, rfl, by decide, rfl, by decide, rfl⟩

/-- C12, as amended: vowel set membership. `isVowel r` holds if and only if
`r` is one of the thirteen characters a, á, e, é, i, í, ó, ú, ü, y, ý, æ, ö;
`transcribe` is the scan with `isVowel` as its vowel test, and for a word
whose normal form holds no `'f'`, in particular for a word that holds neither
`'f'` nor `'F'`, the scan gives the same result with any other vowel test. -/
theorem C12_vowel_set :
    (∀ r : Char, isVowel r = true ↔
      r = 'a' ∨ r = 'á' ∨ r = 'e' ∨ r = 'é' ∨ r = 'i' ∨ r = 'í' ∨ r = 'ó' ∨ r = 'ú' ∨
        r = 'ü' ∨ r = 'y' ∨ r = 'ý' ∨ r = 'æ' ∨ r = 'ö') ∧
    (∀ w : String, transcribeWith isVowel w = transcribe w) ∧
    (∀ (v v' : Char → Bool) (w : String), 'f' ∉ normalize w.data →
      transcribeWith v w = transcribeWith v' w) ∧
    (∀ (v v' : Char → Bool) (w : String), 'f' ∉ w.data → 'F' ∉ w.data →
      transcribeWith v w = transcribeWith v' w) := by
  have h3 : ∀ (v v' : Char → Bool) (w : String), 'f' ∉ normalize w.data →
      transcribeWith v w = transcribeWith v' w := by
    intro v v' w hf
    unfold transcribeWith
    simp only [scanLoopWith_of_no_f v v' hf]
  refine ⟨?_, transcribeWith_isVowel, h3, ?_⟩
  · intro r
    simp [isVowel]
  · intro v v' w hf hF
    apply h3
    intro h
    rcases f_mem_normalize h with h' | h'
    · exact hf h'
    · exact hF h'

theorem C12_vowel_set_witness :
    transcribeWith (fun _ => true) "Reykjavík" = transcribeWith (fun _ => false) "Reykjavík" ∧
    transcribeWith (fun _ => true) " Þingvellir" = transcribeWith (fun _ => false) " Þingvellir" :=
  ⟨C12_vowel_set.2.2.1 (fun _ => true) (fun _ => false) "Reykjavík" (by decide),
   C12_vowel_set.2.2.2 (fun _ => true) (fun _ => false) " Þingvellir" (by decide) (by decide)⟩

/-- C12 as stated fails: the word `"AFA"` holds no `'f'`, yet its normal form
`"afa"` does, and the result depends on the vowel test: `"a-v-a"` with
`isVowel`, `"a-f-a"` with a vowel test that accepts nothing. -/
theorem C12_capital_F_counterexample :
    'f' ∉ "AFA".data ∧ transcribe "AFA" = .ok "a-v-a" ∧
    transcribeWith isVowel "AFA" = .ok "a-v-a" ∧
    transcribeWith (fun _ => false) "AFA" = .ok "a-f-a" ∧
    ¬ (∀ (v v' : Char → Bool) (w : String), 'f' ∉ w.data →
        transcribeWith v w = transcribeWith v' w) := by
  refine ⟨by decide, rfl, rfl, rfl, ?_⟩
  intro h
  have h' := h isVowel (fun _ => false) "AFA" (by decide)
  rw [show transcribeWith isVowel "AFA" = .ok "a-v-a" from rfl,
    show transcribeWith (fun _ => false) "AFA" = .ok "a-f-a" from rfl] at h'
  revert h'
  decide

/-- C13: no error is reachable. Inside the guards the source puts around them,
the slice `runes[i:i+2]` and the index expressions `runes[i]`, `runes[i-1]`,
`runes[i+1]` are in range; every pass at a cursor below `n` completes; and
`transcribe` returns a string for every input. -/
theorem C13_no_fault :
    (∀ (runes : List Char) (i : Nat), i + 1 < runes.length →
      ∃ d, sliceRunes runes i (i + 2) = .ok d) ∧
    (∀ (runes : List Char) (i : Nat), i < runes.length → ∃ c, indexRunes runes i = .ok c) ∧
    (∀ (runes : List Char) (i : Nat), 0 < i → (i : Int) < (runes.length : Int) - 1 →
      (∃ p, indexRunes runes (i - 1) = .ok p) ∧ ∃ q, indexRunes runes (i + 1) = .ok q) ∧
    (∀ (runes : List Char) (i : Nat), ∃ b, flanked runes i = .ok b) ∧
    (∀ (runes : List Char) (i : Nat), i < runes.length →
      ∃ tok j, step runes i = .ok (tok, j)) ∧
    (∀ w : String, ∃ ps, passes w = .ok ps ∧ ∀ p ∈ ps, p.pos < (normalize w.data).length) ∧
    (∀ w : String, ∃ r, transcribe w = .ok r) := by
  refine ⟨fun runes i h => ⟨_, sliceRunes_eq h⟩, fun runes i h => ⟨_, indexRunes_of_lt h⟩,
    ?_, fun runes i => ⟨_, flanked_eq runes i⟩, ?_, ?_, ?_⟩
  · intro runes i h0 h1
    exact ⟨⟨_, indexRunes_of_lt (by omega)⟩, ⟨_, indexRunes_of_lt (by omega)⟩⟩
  · intro runes i h
    obtain ⟨tok, j, hs, -⟩ := step_ok h
    exact ⟨tok, j, hs⟩
  · intro w
    obtain ⟨ps, hp⟩ := passes_total w
    exact ⟨ps, hp, fun p hm => (scanTrace_steps _ _ _ _ hp p hm).1⟩
  · intro w
    obtain ⟨ps, hp⟩ := passes_total w
    exact ⟨_, transcribe_eq hp⟩

theorem C13_no_fault_witness :
    (∃ d, sliceRunes "fjörður".data 5 (5 + 2) = .ok d) ∧
    (∃ c, indexRunes "fjörður".data 6 = .ok c) ∧
    ((∃ p, indexRunes "fjörður".data (5 - 1) = .ok p) ∧
      ∃ q, indexRunes "fjörður".data (5 + 1) = .ok q) ∧
    (∃ tok j, step "fjörður".data 6 = .ok (tok, j)) :=
  ⟨C13_no_fault.1 "fjörður".data 5 (by decide),
   C13_no_fault.2.1 "fjörður".data 6 (by decide),
   C13_no_fault.2.2.1 "fjörður".data 5 (by decide) (by decide),
   C13_no_fault.2.2.2.2.1 "fjörður".data 6 (by decide)⟩

/-- C14: the scan terminates for every input. The loop of `transcribe` over
the normalised word of `n` code points makes the passes `ps`: after `k` of
them it stands at the cursor and builder those `k` passes leave, each pass
starts where the one before left the cursor and moves it by exactly 1 or
exactly 2, before the last pass the cursor is below `n`, and after the last
it is `n`, where the loop exits. So the loop completes on any budget of at
least `ps.length` passes, runs out on any smaller one, and `ps.length ≤ n`:
`transcribe` returns after at most `n` passes. -/
theorem C14_termination (w : String) :
    ∃ ps, passes w = .ok ps ∧ linked 0 ps = true ∧
      (∀ p ∈ ps, p.next = p.pos + 1 ∨ p.next = p.pos + 2) ∧
      ps.length ≤ (normalize w.data).length ∧
      cursorAfter 0 ps = (normalize w.data).length ∧
      (∀ k, k ≤ ps.length → ∀ fuel,
        scanLoop (normalize w.data) (k + fuel) 0 [] =
          scanLoop (normalize w.data) fuel (cursorAfter 0 (ps.take k))
            (writeAll [] ((ps.take k).map Pass.tok))) ∧
      (∀ k, k < ps.length → cursorAfter 0 (ps.take k) < (normalize w.data).length) ∧
      (∀ fuel result, scanLoop (normalize w.data) fuel (normalize w.data).length result =
        .ok result) ∧
      (∀ fuel, ps.length ≤ fuel →
        scanLoop (normalize w.data) fuel 0 [] = .ok (writeAll [] (ps.map Pass.tok))) ∧
      (∀ fuel, fuel < ps.length →
        scanLoop (normalize w.data) fuel 0 [] = .error .outOfFuel) ∧
      transcribeRunes w.data = .ok (writeAll [] (ps.map Pass.tok)) ∧
      transcribe w = .ok (String.mk (writeAll [] (ps.map Pass.tok))) ∧
      ∀ fuel, (normalize w.data).length ≤ fuel →
        scanTrace (normalize w.data) fuel 0 = .ok ps ∧
        scanLoop (normalize w.data) fuel 0 [] =
          scanLoop (normalize w.data) (normalize w.data).length 0 [] := by
  obtain ⟨ps, hp⟩ := passes_total w
  obtain ⟨h1, h2, h3, h4⟩ := passes_account hp
  have hb := scanLoop_budget hp
  refine ⟨ps, hp, h1, ?_, by omega, h2, ?_, ?_, ?_, hb.1, hb.2, ?_, transcribe_eq hp, ?_⟩
  · intro p hm
    obtain ⟨hlt, hs⟩ := scanTrace_steps _ _ _ _ hp p hm
    rcases step_cases hlt hs with ⟨-, hn, -⟩ | ⟨-, hn, -⟩
    · exact Or.inr hn
    · exact Or.inl hn
  · intro k hk fuel
    exact scanLoop_unroll _ ps _ 0 hp k hk fuel []
  · intro k hk
    exact cursorAfter_take_lt _ ps _ 0 hp k hk
  · intro fuel result
    exact scanLoop_of_ge (Nat.le_refl _) fuel result
  · rw [transcribeRunes_eq]
    unfold passes at hp
    simp only at hp
    rw [hp]
  · intro fuel hf
    have he : scanTrace (normalize w.data) fuel 0 =
        scanTrace (normalize w.data) (normalize w.data).length 0 :=
      scanTrace_fuel _ _ _ 0 (by omega) (by omega)
    refine ⟨he.trans hp, ?_⟩
    rw [scanLoop_eq_trace, scanLoop_eq_trace, he]

/-- C15: no overlapping or retroactive rule application. No pass starts
strictly inside the stretch of characters another pass consumed; in
particular no pass starts at the second character of a digraph. The leftmost
match wins: `"rll"` gives `"rtl-l"` (not `"r-tl"`), `"lll"` gives `"tl-l"`, and
`"all"` gives `"a-tl"`. -/
theorem C15_no_overlap :
    (∀ (w : String) (ps : List Pass), passes w = .ok ps →
      ∀ p ∈ ps, ∀ q ∈ ps, ¬ (p.pos < q.pos ∧ q.pos < p.next)) ∧
    (∀ (w : String) (ps : List Pass), passes w = .ok ps →
      ∀ p ∈ ps, (digraphAt (normalize w.data) p.pos).isSome = true →
        p.next = p.pos + 2 ∧ ∀ q ∈ ps, q.pos ≠ p.pos + 1) ∧
    transcribe "rll" = .ok "rtl-l" ∧ transcribe "rll" ≠ .ok "r-tl" ∧
    passes "rll" = .ok [Pass.mk 0 ['r', 't', 'l'] 2, Pass.mk 2 ['l'] 3] ∧
    transcribe "lll" = .ok "tl-l" ∧
    passes "lll" = .ok [Pass.mk 0 ['t', 'l'] 2, Pass.mk 2 ['l'] 3] ∧
    transcribe "all" = .ok "a-tl" ∧
    passes "all" = .ok [Pass.mk 0 ['a'] 1, Pass.mk 1 ['t', 'l'] 3] := by
  have h1 : ∀ (w : String) (ps : List Pass), passes w = .ok ps →
      ∀ p ∈ ps, ∀ q ∈ ps, ¬ (p.pos < q.pos ∧ q.pos < p.next) :=
    fun w ps hp => linked_disjoint ps 0 (passes_account hp).1
  refine ⟨h1, ?_, rfl, by decide, rfl, rfl, rfl, rfl, rfl⟩
  intro w ps hp p hm hd
  obtain ⟨hlt, hs⟩ := scanTrace_steps _ _ _ _ hp p hm
  have hn : p.next = p.pos + 2 := by
    rcases step_cases hlt hs with ⟨-, hn, -⟩ | ⟨hd', -, -⟩
    · exact hn
    · cases hx : digraphAt (normalize w.data) p.pos <;> simp [hx] at hd hd'
  refine ⟨hn, fun q hq e => h1 w ps hp p hm q hq ?_⟩
  omega

theorem C15_no_overlap_witness :
    ¬ ((Pass.mk 0 ['r', 't', 'l'] 2).pos < (Pass.mk 2 ['l'] 3).pos ∧
      (Pass.mk 2 ['l'] 3).pos < (Pass.mk 0 ['r', 't', 'l'] 2).next) :=
  C15_no_overlap.1 "rll" _ rfl (Pass.mk 0 ['r', 't', 'l'] 2) (by decide) (Pass.mk 2 ['l'] 3)
    (by decide)

/-- C16: consumption accounting. For every word, with `n` the number of code
points of its normalised form, `d` the number of passes in which a digraph
case matched (each moves the cursor by 2) and `m` the number of passes that
fell through to the single-character rules (each moves it by 1),
`n = 2*d + m` and the number of tokens written is `k = d + m = n - d`; hence
`ceil(n/2) ≤ k ≤ n`. The `k` tokens are what `transcribe` returns, joined by
hyphens, and its loop makes exactly `k` passes: it completes on a budget of
`k` and on no smaller one. -/
theorem C16_consumption_accounting (w : String) :
    ∃ ps toks, passes w = .ok ps ∧ emitted w = .ok toks ∧ toks.length = ps.length ∧
      (normalize w.data).length =
        2 * digraphPasses (normalize w.data) ps + monographPasses (normalize w.data) ps ∧
      ps.length = digraphPasses (normalize w.data) ps + monographPasses (normalize w.data) ps ∧
      ps.length = (normalize w.data).length - digraphPasses (normalize w.data) ps ∧
      ((normalize w.data).length + 1) / 2 ≤ ps.length ∧
      ps.length ≤ (normalize w.data).length ∧
      (∀ p ∈ ps, ((digraphAt (normalize w.data) p.pos).isSome = true → p.next = p.pos + 2) ∧
        ((digraphAt (normalize w.data) p.pos).isNone = true → p.next = p.pos + 1)) ∧
      (∀ t ∈ toks, t ≠ "") ∧
      transcribe w = .ok ("-".intercalate toks) ∧
      (∀ fuel, ps.length ≤ fuel →
        scanLoop (normalize w.data) fuel 0 [] = .ok (writeAll [] (ps.map Pass.tok))) ∧
      (∀ fuel, fuel < ps.length →
        scanLoop (normalize w.data) fuel 0 [] = .error .outOfFuel) := by
  obtain ⟨ps, hp⟩ := passes_total w
  obtain ⟨-, -, h3, h4⟩ := passes_account hp
  have hb := scanLoop_budget hp
  refine ⟨ps, ps.map (fun p => String.mk p.tok), hp, by simp [emitted, hp],
    List.length_map _ _, by omega, by omega, by omega, by omega, by omega, ?_, ?_,
    transcribe_eq_intercalate hp, hb.1, hb.2⟩
  · intro p hm
    obtain ⟨hlt, hs⟩ := scanTrace_steps _ _ _ _ hp p hm
    rcases step_cases hlt hs with ⟨hd, hn, -⟩ | ⟨hd, hn, -⟩
    · refine ⟨fun _ => hn, fun h' => ?_⟩
      cases hx : digraphAt (normalize w.data) p.pos <;> simp [hx] at hd h'
    · refine ⟨fun h' => ?_, fun _ => hn⟩
      cases hx : digraphAt (normalize w.data) p.pos <;> simp [hx] at hd h'
  · intro t ht
    obtain ⟨p, hm, rfl⟩ := List.mem_map.mp ht
    intro e
    exact passes_tok_ne_nil hp p hm (congrArg String.data e)

/-- C17: separator placement equals joining. Every token written is non-empty;
so before the `k`-th token is written the builder is non-empty exactly when
`k > 0`; and for every input the returned string is the list of tokens joined
with the separator `-`, both as `List.intercalate` over the character lists
and as `String.intercalate` over the token strings. -/
theorem C17_join (w : String) :
    ∃ ps toks, passes w = .ok ps ∧ emitted w = .ok toks ∧
      (∀ p ∈ ps, p.tok ≠ []) ∧
      (∀ k, k ≤ ps.length →
        ((writeAll [] ((ps.map Pass.tok).take k)).length > 0 ↔ 0 < k)) ∧
      transcribe w = .ok (String.mk (joinTokens (ps.map Pass.tok))) ∧
      transcribe w = .ok ("-".intercalate toks) := by
  obtain ⟨ps, hp⟩ := passes_total w
  have hne := passes_tok_ne_nil hp
  have hne' : ∀ t ∈ ps.map Pass.tok, t ≠ [] := by
    intro t ht
    obtain ⟨p, hm, rfl⟩ := List.mem_map.mp ht
    exact hne p hm
  refine ⟨ps, ps.map (fun p => String.mk p.tok), hp, by simp [emitted, hp], hne, ?_, ?_, ?_⟩
  · intro k hk
    cases k with
    | zero => simp [writeAll]
    | succ k =>
      have hlen : k < (ps.map Pass.tok).length := by
        rw [List.length_map]
        omega
      generalize ps.map Pass.tok = toks at hne' hlen
      cases toks with
      | nil => simp at hlen
      | cons t ts =>
        rw [List.take_succ_cons, writeAll_nil_cons]
        have ht : t ≠ [] := hne' t (List.mem_cons_self _ _)
        obtain ⟨rest, hrest⟩ := writeAll_initial (ts.take k) t
        rw [← hrest, List.length_append]
        have := List.length_pos.mpr ht
        simp only [gt_iff_lt, Nat.zero_lt_succ, iff_true]
        omega
  · rw [transcribe_eq hp, writeAll_eq_joinTokens _ hne']
  · rw [transcribe_eq hp]
    have hmap : ps.map (fun p => String.mk p.tok) = (ps.map Pass.tok).map String.mk := by
      rw [List.map_map]
      rfl
    rw [hmap]
    generalize ps.map Pass.tok = toks at hne'
    cases toks with
    | nil => rfl
    | cons t ts =>
      rw [writeAll_nil_cons, List.map_cons, String.intercalate,
        intercalate_go_eq ts t (hne' t (List.mem_cons_self _ _))]

/-- C18: the concatenation law. For all non-empty, already trimmed, already
lower-case words `a` and `b` such that the last character of `a` is not `'f'`,
the first character of `b` is not `'f'`, and the last character of `a`
followed by the first character of `b` is not a digraph pattern,
`transcribe (a ++ b)` is `transcribe a`, a hyphen, and `transcribe b`. -/
theorem C18_concatenation (a b : String) (ha : a.data ≠ []) (hb : b.data ≠ [])
    (hta : TrimSpace a.data = a.data) (hla : ToLower a.data = a.data)
    (htb : TrimSpace b.data = b.data) (hlb : ToLower b.data = b.data)
    (hfa : a.data.getLast? ≠ some 'f') (hfb : b.data.head? ≠ some 'f')
    (hd : ∀ x y, a.data.getLast? = some x → b.data.head? = some y →
      [x, y] ∉ digraphRules.map Prod.fst) :
    ∃ ra rb, transcribe a = .ok ra ∧ transcribe b = .ok rb ∧
      transcribe (a ++ b) = .ok (ra ++ "-" ++ rb) := by
  have hna : normalize a.data = a.data := by
    unfold normalize
    rw [hta, hla]
  have hnb : normalize b.data = b.data := by
    unfold normalize
    rw [htb, hlb]
  have hab : (a ++ b).data = a.data ++ b.data := String.data_append a b
  have hnab : normalize (a ++ b).data = (a ++ b).data := by
    rw [hab]
    exact normalize_append ha hb hta hla htb hlb
  have hne : (a ++ b).data ≠ [] := by
    rw [hab]
    exact fun e => ha (List.append_eq_nil.mp e).1
  rw [transcribe_of_normal hna ha, transcribe_of_normal hnb hb, transcribe_of_normal hnab hne,
    hab]
  rcases List.eq_nil_or_concat a.data with e | ⟨a', x, ea⟩
  · exact absurd e ha
  · cases eb : b.data with
    | nil => exact absurd eb hb
    | cons y b' =>
      rw [List.concat_eq_append] at ea
      rw [ea] at hfa hd
      rw [eb] at hfb hd
      have hx : x ≠ 'f' := by
        intro e
        apply hfa
        rw [e]
        simp
      have hy : y ≠ 'f' := by
        intro e
        apply hfb
        rw [e]
        rfl
      have hxy : digraphToken [x, y] = none := by
        cases h : digraphToken [x, y] with
        | none => rfl
        | some t =>
          exfalso
          exact hd x y (by simp) rfl
            (List.mem_map.mpr ⟨([x, y], t), digraphToken_iff.mp h, rfl⟩)
      obtain ⟨ra, rb, h1, h2, h3⟩ := @scanLoop_append a' b' x y hx hy hxy
      rw [ea, h1, h2, h3]
      exact ⟨String.mk ra, String.mk rb, rfl, rfl, rfl⟩

theorem C18_concatenation_witness :
    ∃ ra rb, transcribe "þing" = .ok ra ∧ transcribe "vellir" = .ok rb ∧
      transcribe ("þing" ++ "vellir") = .ok (ra ++ "-" ++ rb) :=
  C18_concatenation "þing" "vellir" (by decide) (by decide) (by rfl) (by rfl) (by rfl) (by rfl)
    (by decide) (by decide)
    (by
      intro x y hx hy
      have ex : x = 'g' := by simpa using hx.symm
      have ey : y = 'v' := by simpa using hy.symm
      subst ex
      subst ey
      decide)

/-- C19: the result is empty only for blank input. For every input `w`,
`transcribe w` is the empty string if and only if `w` is empty or consists
only of white space; every input with at least one character that is not
white space yields a non-empty string. -/
theorem C19_empty_iff_blank :
    (∀ w : String, transcribe w = .ok "" ↔ ∀ c ∈ w.data, isSpace c = true) ∧
    (∀ w : String, (∃ c ∈ w.data, isSpace c = false) →
      ∃ r, transcribe w = .ok r ∧ r ≠ "" ∧ 0 < r.length) := by
  refine ⟨transcribe_eq_empty_iff, ?_⟩
  intro w ⟨c, hc, hs⟩
  obtain ⟨ps, hp⟩ := passes_total w
  refine ⟨_, transcribe_eq hp, ?_⟩
  have hne : String.mk (writeAll [] (ps.map Pass.tok)) ≠ "" := by
    intro e
    have h1 := (transcribe_eq_empty_iff w).mp (by rw [transcribe_eq hp, e]) c hc
    rw [hs] at h1
    cases h1
  refine ⟨hne, ?_⟩
  show 0 < (writeAll [] (ps.map Pass.tok)).length
  apply List.length_pos.mpr
  intro e
  exact hne (by rw [e])

theorem C19_empty_iff_blank_witness :
    ∃ r, transcribe " \tá " = .ok r ∧ r ≠ "" ∧ 0 < r.length :=
  C19_empty_iff_blank.2 " \tá " ⟨'á', by decide, by decide⟩

end Englishland
